import Mathlib

/-!
Verification development for the Markdown document segmentation and chunking
engine of the context1000 RAG repository (`src/document-processor.ts`).

Texts are embedded as `List Char`.  JavaScript string operations (`trim`,
`split`, `match` with the sentence-split regular expression, `replace`) are
translated as executable Lean functions over character lists, following the
semantics of the JavaScript source.
-/

namespace Rag

abbrev Str := List Char

/-- The set of characters matched by JavaScript `\s` (and removed by
`String.prototype.trim`). -/
def isJsSpace (c : Char) : Bool :=
  c = ' ' || c = '\t' || c = '\n' || c = '\r' ||
  c.val = 0x0B || c.val = 0x0C ||
  c.val = 0xA0 || c.val = 0x1680 ||
  (0x2000 ≤ c.val && c.val ≤ 0x200A) ||
  c.val = 0x2028 || c.val = 0x2029 || c.val = 0x202F ||
  c.val = 0x205F || c.val = 0x3000 || c.val = 0xFEFF

/-- Sentence terminator characters `.`, `!`, `?` of the sentence-split
regular expression. -/
def isTerm (c : Char) : Bool := c = '.' || c = '!' || c = '?'

/-- Characters matchable by `[^.!?\n]` in the sentence-split regular
expression. -/
def isRunChar (c : Char) : Bool := !(isTerm c) && c ≠ '\n'

def isAsciiUpper (c : Char) : Bool := 'A' ≤ c && c ≤ 'Z'

/-- `estimateTokens`: `Math.ceil(text.length / 4)`. -/
def estimateTokens (text : Str) : Nat := (text.length + 3) / 4

/-- JavaScript `String.prototype.trim` on a character list. -/
def jsTrim (l : Str) : Str :=
  ((l.dropWhile isJsSpace).reverse.dropWhile isJsSpace).reverse

/-- `Array.prototype.join(" ")`. -/
def joinSp : List Str → Str
  | [] => []
  | [a] => a
  | a :: b :: t => a ++ ' ' :: joinSp (b :: t)

/-- `Array.prototype.join("\n")`. -/
def joinNl : List Str → Str
  | [] => []
  | [a] => a
  | a :: b :: t => a ++ '\n' :: joinNl (b :: t)

/-- JavaScript `String.prototype.split("\n")`. -/
def splitNl : Str → List Str
  | [] => [[]]
  | c :: t =>
    match splitNl t with
    | [] => [[c]]
    | h :: r => if c = '\n' then [] :: h :: r else (c :: h) :: r

/-- The lookahead `(?:(?![\s\n])|(?=[\s\n](?:[A-Z]|$)))` applied after the
terminator character, to the remaining input. -/
def lookaheadOk : Str → Bool
  | [] => true
  | c1 :: rest =>
    if !(isJsSpace c1) then true
    else
      match rest with
      | [] => true
      | c2 :: _ => isAsciiUpper c2

/-- One match attempt of `SENTENCE_SPLIT_REGEX` at the start of `cs`:
greedy `[^.!?\n]+`, then a terminator with a satisfied lookahead.  Returns
the matched text and the remaining input. -/
def tryMatch (cs : Str) : Option (Str × Str) :=
  let run := cs.takeWhile isRunChar
  if run.isEmpty then none
  else
    match cs.dropWhile isRunChar with
    | [] => none
    | t :: rest =>
      if isTerm t && lookaheadOk rest then some (run ++ [t], rest) else none

/-- Fueled scan implementing the global (`/g`) match of
`SENTENCE_SPLIT_REGEX`: on failure advance one position, on success continue
after the match. -/
def regexMatchesAux : Nat → Str → List Str
  | 0, _ => []
  | _ + 1, [] => []
  | fuel + 1, c :: rest0 =>
    match tryMatch (c :: rest0) with
    | some (m, rest) => m :: regexMatchesAux fuel rest
    | none => regexMatchesAux fuel rest0

/-- All matches of `SENTENCE_SPLIT_REGEX` in the text (`text.match(...)`,
empty list for `null`). -/
def regexMatches (text : Str) : List Str := regexMatchesAux text.length text

/-- `splitIntoSentences`. -/
def splitIntoSentences (text : Str) : List Str :=
  let ms := regexMatches text
  if ms.isEmpty then [text]
  else (ms.map jsTrim).filter (fun s => s.length > 0)

/-- The descending accumulation loop of `getLastNTokensOfText`, processing
the reversed sentence list and prepending accepted sentences. -/
def tailTake (maxTokens : Nat) : List Str → Nat → List Str → List Str
  | [], _, acc => acc
  | s :: rest, tok, acc =>
    let t := tok + estimateTokens s + (if acc.isEmpty then 0 else 1)
    if t > maxTokens then (if acc.isEmpty then [s] else acc)
    else tailTake maxTokens rest t (s :: acc)

/-- `getLastNTokensOfText`. -/
def getLastNTokensOfText (text : Str) (maxTokens : Nat) : Str :=
  jsTrim (joinSp (tailTake maxTokens (splitIntoSentences text).reverse 0 []))

/-- Does `pat` occur at the start of `s`? -/
def leadsWith : Str → Str → Bool
  | [], _ => true
  | _ :: _, [] => false
  | a :: as, b :: bs => a = b && leadsWith as bs

/-- Does `pat` occur at the end of `s`?  (`String.prototype.endsWith`) -/
def endsWith (pat s : Str) : Bool := leadsWith pat.reverse s.reverse

/-- Does `pat` occur anywhere in `s`?  (`String.prototype.includes`) -/
def hasSub (pat : Str) : Str → Bool
  | [] => leadsWith pat []
  | c :: t => leadsWith pat (c :: t) || hasSub pat t

/-- Index of the first occurrence of `pat` in `s`, if any. -/
def subIdx (pat : Str) : Str → Option Nat
  | [] => if leadsWith pat [] then some 0 else none
  | c :: t =>
    if leadsWith pat (c :: t) then some 0
    else (subIdx pat t).map (· + 1)

/-- JavaScript `String.prototype.replace(pat, rep)` with a plain string
pattern: replaces only the first occurrence. -/
def replaceFirstStr (pat rep : Str) : Str → Str
  | [] => if leadsWith pat [] then rep else []
  | c :: t =>
    if leadsWith pat (c :: t) then rep ++ (c :: t).drop pat.length
    else c :: replaceFirstStr pat rep t

/-- Node `path.basename`: strip trailing separators, then take the part
after the last separator. -/
def basenameOf (p : Str) : Str :=
  ((p.reverse.dropWhile (· = '/')).takeWhile (· ≠ '/')).reverse

/-- `filePath.includes("\\") ? filePath.replace(/\\/g, "/") : filePath`. -/
def normalizeSlashes (p : Str) : Str :=
  if hasSub ['\\'] p then p.map (fun c => if c = '\\' then '/' else c) else p

/-- The test of `/\/projects\/[^\/]+\/.+\.md$/` on a path: somewhere in the
path, `/projects/`, a non-empty separator-free segment, `/`, then a
non-empty newline-free stretch ending in `.md` at the end of the string. -/
def projectSubdirAt (cs : Str) : Bool :=
  if leadsWith ("/projects/" : String).data cs then
    let after := cs.drop 10
    let seg := after.takeWhile (· ≠ '/')
    match after.dropWhile (· ≠ '/') with
    | [] => false
    | _ :: rest2 =>
      !seg.isEmpty &&
      endsWith (".md" : String).data rest2 &&
      decide (3 < rest2.length) &&
      (rest2.take (rest2.length - 3)).all (· ≠ '\n')
  else false

def projectSubdirTest : Str → Bool
  | [] => false
  | c :: t => projectSubdirAt (c :: t) || projectSubdirTest t

/-- The capture of `filePath.match(/\/projects\/([^\/]+)/)`: the first
occurrence of `/projects/` followed by at least one non-separator
character. -/
def projectCapture : Str → Option Str
  | [] => none
  | c :: t =>
    if leadsWith ("/projects/" : String).data (c :: t) then
      let seg := ((c :: t).drop 10).takeWhile (· ≠ '/')
      if seg.isEmpty then projectCapture t else some seg
    else projectCapture t

/-- `DocumentType`. -/
inductive DocumentType where
  | adr | rfc | guide | rule | project
deriving DecidableEq

open DocumentType in
/-- `inferDocumentType`. -/
def inferDocumentType (filePath : Str) : DocumentType :=
  let fileName := basenameOf filePath
  if endsWith (".adr.md" : String).data fileName then adr
  else if endsWith (".rfc.md" : String).data fileName then rfc
  else if endsWith (".guide.md" : String).data fileName then guide
  else if endsWith (".rules.md" : String).data fileName then rule
  else
    let normalizedPath := normalizeSlashes filePath
    if hasSub ("/decisions/adr/" : String).data normalizedPath then adr
    else if hasSub ("/decisions/rfc/" : String).data normalizedPath then rfc
    else if hasSub ("/guides/" : String).data normalizedPath then guide
    else if hasSub ("/rules/" : String).data normalizedPath then rule
    else if fileName = ("project.md" : String).data &&
        hasSub ("/projects/" : String).data normalizedPath then project
    else if projectSubdirTest normalizedPath then project
    else guide

/-- A parsed front-matter (YAML/JSON-like) value as exposed to the
validators. -/
inductive JVal where
  | null
  | bool (b : Bool)
  | num (n : Int)
  | str (s : Str)
  | arr (xs : List JVal)
  | obj (fields : List (Str × JVal))

/-- Property access `v[key]` for the validators: only plain objects have
the recognized properties; arrays and primitives yield `undefined`. -/
def jProp (v : JVal) (key : Str) : Option JVal :=
  match v with
  | JVal.obj fields =>
    match fields.find? (fun kv => kv.1 = key) with
    | some kv => some kv.2
    | none => none
  | _ => none

/-- Is the value a truthy `typeof === "object"` value (a non-null object
or array)?  This is the `!links || typeof links !== "object"` guard. -/
def jIsTruthyObject : JVal → Bool
  | JVal.obj _ => true
  | JVal.arr _ => true
  | _ => false

/-- The category fields of a validated directed-link object (`adrs`,
`rfcs`, `guides`, `rules`, `projects`); a field is `some` exactly when the
corresponding JavaScript property was created. -/
structure DirectedLinks where
  adrs : Option (List JVal)
  rfcs : Option (List JVal)
  guides : Option (List JVal)
  rules : Option (List JVal)
  projects : Option (List JVal)

/-- Number of created properties of a `DirectedLinks` object
(`Object.keys(validated).length`). -/
def DirectedLinks.keyCount (d : DirectedLinks) : Nat :=
  (if d.adrs.isSome then 1 else 0) + (if d.rfcs.isSome then 1 else 0) +
  (if d.guides.isSome then 1 else 0) + (if d.rules.isSome then 1 else 0) +
  (if d.projects.isSome then 1 else 0)

/-- Pick the category value if it is already an array
(`Array.isArray(value)`), else leave the property uncreated. -/
def arrayProp (links : JVal) (key : Str) : Option (List JVal) :=
  match jProp links key with
  | some (JVal.arr xs) => some xs
  | _ => none

/-- `validateDirectedLinks`. -/
def validateDirectedLinks (links : Option JVal) : Option DirectedLinks :=
  match links with
  | none => none
  | some v =>
    if jIsTruthyObject v then
      let d : DirectedLinks :=
        { adrs := arrayProp v ("adrs" : String).data
          rfcs := arrayProp v ("rfcs" : String).data
          guides := arrayProp v ("guides" : String).data
          rules := arrayProp v ("rules" : String).data
          projects := arrayProp v ("projects" : String).data }
      if d.keyCount > 0 then some d else none
    else none

/-- The result object of `validateRelatedMetadata`.  The `dependsOn` and
`supersedes` properties are always created by the two unconditional
assignments in the source (a JavaScript property assigned `undefined` still
exists and is counted by `Object.keys`). -/
structure RelatedValidated where
  simple : DirectedLinks
  dependsOn : Option DirectedLinks
  supersedes : Option DirectedLinks

/-- `Object.keys(validated).length` for the top-level validated object:
the created simple category keys plus the two always-created directed
keys. -/
def RelatedValidated.keyCount (r : RelatedValidated) : Nat :=
  r.simple.keyCount + 2

/-- `validateRelatedMetadata`. -/
def validateRelatedMetadata (related : JVal) : Option RelatedValidated :=
  if jIsTruthyObject related then
    let v : RelatedValidated :=
      { simple :=
          { adrs := arrayProp related ("adrs" : String).data
            rfcs := arrayProp related ("rfcs" : String).data
            guides := arrayProp related ("guides" : String).data
            rules := arrayProp related ("rules" : String).data
            projects := arrayProp related ("projects" : String).data }
        dependsOn := validateDirectedLinks (jProp related ("depends-on" : String).data)
        supersedes := validateDirectedLinks (jProp related ("supersedes" : String).data) }
    if v.keyCount > 0 then some v else none
  else none

/-- `VALID_STATUSES`. -/
def validStatuses : DocumentType → List Str
  | DocumentType.adr =>
    [("draft" : String).data, ("accepted" : String).data, ("rejected" : String).data,
     ("deprecated" : String).data, ("superseded" : String).data]
  | DocumentType.rfc =>
    [("draft" : String).data, ("review" : String).data, ("accepted" : String).data,
     ("rejected" : String).data, ("implemented" : String).data]
  | DocumentType.guide => []
  | DocumentType.rule => []
  | DocumentType.project =>
    [("active" : String).data, ("inactive" : String).data,
     ("archived" : String).data, ("planning" : String).data]

/-- `validateStatus` (the `!status || typeof status !== "string"` guard
rejects missing, non-string and empty-string values). -/
def validateStatus (status : Option JVal) (type : DocumentType) : Option Str :=
  match status with
  | some (JVal.str s) =>
    if s.isEmpty then none
    else
      let allowed := validStatuses type
      if allowed.isEmpty then some s
      else if (s.map Char.toLower) ∈ allowed then some s else none
  | _ => none

/-- `extractTitle`: front-matter `title`, else `name`, else the file name
without its `.md` extension (`path.basename(filePath, ".md")`). -/
def extractTitle (frontmatter : JVal) (filePath : Str) : Str :=
  match jProp frontmatter ("title" : String).data with
  | some (JVal.str s) => s
  | _ =>
    match jProp frontmatter ("name" : String).data with
    | some (JVal.str s) => s
    | _ =>
      let base := basenameOf filePath
      if endsWith (".md" : String).data base then base.take (base.length - 3) else base

/-- `extractProjectsArray`. -/
def extractProjectsArray (frontmatter : JVal) (filePath : Str) : List JVal :=
  match jProp frontmatter ("related" : String).data with
  | some rel =>
    match jProp rel ("projects" : String).data with
    | some (JVal.arr xs) => xs
    | _ => (projectCapture filePath).elim [] (fun seg => [JVal.str seg])
  | none => (projectCapture filePath).elim [] (fun seg => [JVal.str seg])

/-- `BaseMetadata`. -/
structure BaseMetadata where
  title : Str
  type : DocumentType
  tags : List JVal
  projects : List JVal
  status : Option Str
  filePath : Str
  related : Option RelatedValidated

/-- A heading-delimited `Section`. -/
structure Section where
  title : Str
  content : Str
  type : Str
deriving DecidableEq

/-- The match of `/^(#{1,6})\s+(.+)$/` against one line, returning the
heading-text capture group.  `\s+` is greedy but backtracks one character
when `(.+)` would otherwise be empty. -/
def headingOf (line : Str) : Option Str :=
  let hashes := line.takeWhile (· = '#')
  let rest := line.dropWhile (· = '#')
  if 1 ≤ hashes.length ∧ hashes.length ≤ 6 then
    let ws := rest.takeWhile isJsSpace
    let tl := rest.dropWhile isJsSpace
    if ws.isEmpty then none
    else if !tl.isEmpty then some tl
    else if 2 ≤ ws.length then some (ws.drop (ws.length - 1))
    else none
  else none

/-- `SECTION_TYPE_PATTERNS` as an ordered keyword table. -/
def sectionTypePatterns : List (Str × List Str) :=
  [(("context" : String).data,
    [("context" : String).data, ("problem" : String).data, ("background" : String).data,
     ("motivation" : String).data, ("rationale" : String).data, ("why" : String).data]),
   (("decision" : String).data,
    [("decision" : String).data, ("solution" : String).data, ("approach" : String).data,
     ("proposal" : String).data, ("chosen" : String).data]),
   (("consequences" : String).data,
    [("consequence" : String).data, ("impact" : String).data, ("tradeoff" : String).data,
     ("implication" : String).data, ("effect" : String).data]),
   (("alternatives" : String).data,
    [("alternative" : String).data, ("option" : String).data, ("considered" : String).data,
     ("comparison" : String).data, ("rejected" : String).data]),
   (("implementation" : String).data,
    [("implementation" : String).data, ("plan" : String).data, ("rollout" : String).data,
     ("migration" : String).data, ("deploy" : String).data, ("schedule" : String).data]),
   (("summary" : String).data,
    [("summary" : String).data, ("overview" : String).data, ("tldr" : String).data,
     ("abstract" : String).data, ("intro" : String).data]),
   (("metrics" : String).data,
    [("metric" : String).data, ("measure" : String).data, ("success" : String).data,
     ("criteria" : String).data, ("kpi" : String).data]),
   (("risks" : String).data,
    [("risk" : String).data, ("concern" : String).data, ("question" : String).data,
     ("issue" : String).data, ("challenge" : String).data])]

/-- `inferSectionType`: lower-case the title, return the first table entry
one of whose alternatives occurs in it. -/
def inferSectionType (title : Str) : Str :=
  let lower := title.map Char.toLower
  let rec go : List (Str × List Str) → Str
    | [] => ("content" : String).data
    | (ty, kws) :: rest => if kws.any (fun kw => hasSub kw lower) then ty else go rest
  go sectionTypePatterns

/-- The accumulation loop of `extractSections` over the lines of the body. -/
def extractLoop : List Str → List Str → Str → Str → List Section
  | [], curLines, curTitle, curType =>
    if !curLines.isEmpty ∧ !(jsTrim (joinNl curLines)).isEmpty then
      [⟨curTitle, joinNl curLines, curType⟩]
    else []
  | line :: rest, curLines, curTitle, curType =>
    match headingOf line with
    | some title =>
      (if !curLines.isEmpty ∧ !(jsTrim (joinNl curLines)).isEmpty then
        [⟨curTitle, joinNl curLines, curType⟩]
      else []) ++ extractLoop rest [line] title (inferSectionType title)
    | none => extractLoop rest (curLines ++ [line]) curTitle curType

/-- `extractSections`. -/
def extractSections (content : Str) : List Section :=
  let sections := extractLoop (splitNl content) [] [] (("content" : String).data)
  if sections.isEmpty then
    [⟨("Content" : String).data, content, ("content" : String).data⟩]
  else sections

/-- `ChunkMetadata` (the base metadata spread plus the chunk fields). -/
structure ChunkMetadata where
  base : BaseMetadata
  chunkIndex : Nat
  totalChunks : Nat
  sectionType : Str
  sectionTitle : Str
  tokens : Nat

/-- `DocumentChunk`. -/
structure DocumentChunk where
  id : Str
  content : Str
  metadata : ChunkMetadata

def MAX_CHUNK_TOKENS : Nat := 1200
def OVERLAP_TOKENS : Nat := 200

/-- `addDocumentContext`. -/
def addDocumentContext (content : Str) (documentTitle : Str) : Str :=
  '#' :: ' ' :: (documentTitle ++ '\n' :: '\n' :: jsTrim content)

/-- `createChunk`. -/
def createChunk (documentId : Str) (chunkIndex : Nat) (sec : Section)
    (baseMetadata : BaseMetadata) (content : Str) : DocumentChunk :=
  let contentWithContext := addDocumentContext content baseMetadata.title
  { id := documentId ++ ('_' :: 'c' :: 'h' :: 'u' :: 'n' :: 'k' :: '_' :: Nat.toDigits 10 chunkIndex)
    content := contentWithContext
    metadata :=
      { base := baseMetadata
        chunkIndex := chunkIndex
        totalChunks := 0
        sectionType := sec.type
        sectionTitle := sec.title
        tokens := estimateTokens contentWithContext } }

/-- The sentence loop of `splitLargeSectionSentenceAware`, rendered without
the array accumulator: each finalized chunk is emitted in front of the
chunks of the remaining state. -/
def splitLoop (d : Str) (sec : Section) (m : BaseMetadata) :
    List Str → List Str → Nat → Nat → List DocumentChunk
  | [], currentParts, currentIndex, _ =>
    if !currentParts.isEmpty ∧ !(jsTrim (joinSp currentParts)).isEmpty then
      [createChunk d currentIndex sec m (joinSp currentParts)]
    else []
  | s :: rest, currentParts, currentIndex, currentTokens =>
    let sentenceTokens := estimateTokens s
    let projectedTokens := currentTokens + sentenceTokens + (if currentParts.isEmpty then 0 else 1)
    if projectedTokens > MAX_CHUNK_TOKENS ∧ !currentParts.isEmpty then
      let chunkContent := joinSp currentParts
      let overlapText := getLastNTokensOfText chunkContent OVERLAP_TOKENS
      createChunk d currentIndex sec m chunkContent ::
        splitLoop d sec m rest [overlapText, s] (currentIndex + 1)
          (estimateTokens overlapText + sentenceTokens + 1)
    else splitLoop d sec m rest (currentParts ++ [s]) currentIndex projectedTokens

/-- `splitLargeSectionSentenceAware`. -/
def splitLargeSectionSentenceAware (sec : Section) (documentId : Str)
    (startIndex : Nat) (baseMetadata : BaseMetadata) : List DocumentChunk :=
  splitLoop documentId sec baseMetadata (splitIntoSentences sec.content) [] startIndex 0

/-- `chunkSection`. -/
def chunkSection (sec : Section) (documentId : Str) (startIndex : Nat)
    (baseMetadata : BaseMetadata) : List DocumentChunk :=
  if estimateTokens sec.content ≤ MAX_CHUNK_TOKENS then
    [createChunk documentId startIndex sec baseMetadata sec.content]
  else splitLargeSectionSentenceAware sec documentId startIndex baseMetadata

/-- The per-section loop of `createDocumentChunks`, threading the running
chunk index. -/
def chunkAllSections (d : Str) (m : BaseMetadata) : List Section → Nat → List DocumentChunk
  | [], _ => []
  | s :: rest, i =>
    let cs := chunkSection s d i m
    cs ++ chunkAllSections d m rest (i + cs.length)

/-- `createDocumentChunks`: chunk every section, then backfill
`totalChunks` on every chunk. -/
def createDocumentChunks (documentId : Str) (content : Str)
    (baseMetadata : BaseMetadata) : List DocumentChunk :=
  let chunks := chunkAllSections documentId baseMetadata (extractSections content) 0
  let totalChunks := chunks.length
  chunks.map (fun c => { c with metadata := { c.metadata with totalChunks := totalChunks } })

/-- Model of Node `path.relative(cwd, p)` for the case where `cwd` is an
ancestor directory of `p` (the processing-root situation); otherwise the
path is returned unchanged. -/
def pathRelative (cwd p : Str) : Str :=
  if leadsWith (cwd ++ ['/']) p then p.drop (cwd.length + 1) else p

/-- `generateDocumentId`: the path relative to the working directory, all
`/` replaced by `_`, then `.replace(".md", "")` (first occurrence only). -/
def generateDocumentId (cwd filePath : Str) : Str :=
  replaceFirstStr (".md" : String).data []
    ((pathRelative cwd filePath).map (fun c => if c = '/' then '_' else c))

/-- `ProcessedDocument`. -/
structure ProcessedDocument where
  id : Str
  content : Str
  chunks : List DocumentChunk
  metadata : BaseMetadata

/-- One input file as exposed to `processMarkdownFile` after the
front-matter collaborator (`gray-matter`) has split it: the path, the
parsed front-matter object and the Markdown body. -/
structure InputFile where
  path : Str
  frontmatter : JVal
  body : Str

/-- JavaScript truthiness of a front-matter value. -/
def jTruthy : JVal → Bool
  | JVal.null => false
  | JVal.bool b => b
  | JVal.num n => n ≠ 0
  | JVal.str s => !s.isEmpty
  | JVal.arr _ => true
  | JVal.obj _ => true

/-- `frontmatter.related || {}`. -/
def jOrEmptyObj (v : Option JVal) : JVal :=
  match v with
  | some w => if jTruthy w then w else JVal.obj []
  | none => JVal.obj []

/-- `processMarkdownFile` (the file read and front-matter parse are the
collaborator boundary; its output is the `InputFile`). -/
def processMarkdownFile (cwd : Str) (f : InputFile) : Option ProcessedDocument :=
  let markdownContent := f.body
  if (jsTrim markdownContent).isEmpty then none
  else
    let type := inferDocumentType f.path
    let id := generateDocumentId cwd f.path
    let baseMetadata : BaseMetadata :=
      { title := extractTitle f.frontmatter f.path
        type := type
        tags :=
          match jProp f.frontmatter ("tags" : String).data with
          | some (JVal.arr xs) => xs
          | _ => []
        projects := extractProjectsArray f.frontmatter f.path
        status := validateStatus (jProp f.frontmatter ("status" : String).data) type
        filePath := f.path
        related :=
          validateRelatedMetadata
            (jOrEmptyObj (jProp f.frontmatter ("related" : String).data)) }
    let chunks := createDocumentChunks id (jsTrim markdownContent) baseMetadata
    some
      { id := id
        content := jsTrim markdownContent
        chunks := chunks
        metadata := baseMetadata }

/-- The directory walker restricted to its per-file filter (`.md` suffix,
no leading underscore) over an already-discovered file list; traversal
order is the order of the list. -/
def pipelineModel (cwd : Str) (files : List InputFile) : List ProcessedDocument :=
  files.filterMap (fun f =>
    let nm := basenameOf f.path
    if endsWith (".md" : String).data nm ∧ ¬ leadsWith ['_'] nm then
      processMarkdownFile cwd f
    else none)

/-- The chunk list obtained by pairing a list of raw chunk contents with
consecutive indices starting at `i`. -/
def chunksFrom (d : Str) (sec : Section) (m : BaseMetadata) : Nat → List Str → List DocumentChunk
  | _, [] => []
  | i, r :: rs => createChunk d i sec m r :: chunksFrom d sec m (i + 1) rs

/-- Instrumented clone of `splitLoop` that records only the raw (pre
context-header) chunk contents, together with a flag that is `true` exactly
when every overlap seed taken during the run fit the overlap budget. -/
def rawsLoop : List Str → List Str → Nat → List Str × Bool
  | [], currentParts, _ =>
    (if !currentParts.isEmpty ∧ !(jsTrim (joinSp currentParts)).isEmpty then
      [joinSp currentParts]
    else [], true)
  | s :: rest, currentParts, currentTokens =>
    let sentenceTokens := estimateTokens s
    let projectedTokens := currentTokens + sentenceTokens + (if currentParts.isEmpty then 0 else 1)
    if projectedTokens > MAX_CHUNK_TOKENS ∧ !currentParts.isEmpty then
      let chunkContent := joinSp currentParts
      let overlapText := getLastNTokensOfText chunkContent OVERLAP_TOKENS
      let r := rawsLoop rest [overlapText, s] (estimateTokens overlapText + sentenceTokens + 1)
      (chunkContent :: r.1, (estimateTokens overlapText ≤ OVERLAP_TOKENS) && r.2)
    else rawsLoop rest (currentParts ++ [s]) projectedTokens

/-- The raw chunk contents of a section's sentence-aware split. -/
def sectionRaws (sec : Section) : List Str :=
  (rawsLoop (splitIntoSentences sec.content) [] 0).1

/-- Did every overlap seed taken while splitting this section fit the
overlap budget? -/
def sectionSeedsOk (sec : Section) : Bool :=
  (rawsLoop (splitIntoSentences sec.content) [] 0).2

/-- The running token total the chunker maintains for a buffer of
sentences: the per-sentence estimates plus one unit per joining space. -/
def tokenAcc (l : List Str) : Nat :=
  match l with
  | [] => 0
  | _ => (l.map estimateTokens).sum + (l.length - 1)

/-- Estimated token count of the `"# {title}\n\n"` context header that
`addDocumentContext` prepends to every chunk. -/
def headerTokens (title : Str) : Nat := (title.length + 7) / 4

/-- An ordered classification rule: a test on the file path and the
resulting document type. -/
def firstRuleMatch : List ((Str → Bool) × DocumentType) → Str → DocumentType
  | [], _ => DocumentType.guide
  | (t, ty) :: rest, p => if t p then ty else firstRuleMatch rest p

open DocumentType in
/-- The document-type precedence rules exactly as the specification orders
them: filename-suffix patterns, then reserved path segments, then the
designated project file name under a project directory, then any file two
or more segments beneath a project directory, then the fallback (built into
`firstRuleMatch`). -/
def docTypeRules : List ((Str → Bool) × DocumentType) :=
  [(fun p => endsWith (".adr.md" : String).data (basenameOf p), adr),
   (fun p => endsWith (".rfc.md" : String).data (basenameOf p), rfc),
   (fun p => endsWith (".guide.md" : String).data (basenameOf p), guide),
   (fun p => endsWith (".rules.md" : String).data (basenameOf p), rule),
   (fun p => hasSub ("/decisions/adr/" : String).data (normalizeSlashes p), adr),
   (fun p => hasSub ("/decisions/rfc/" : String).data (normalizeSlashes p), rfc),
   (fun p => hasSub ("/guides/" : String).data (normalizeSlashes p), guide),
   (fun p => hasSub ("/rules/" : String).data (normalizeSlashes p), rule),
   (fun p => basenameOf p = ("project.md" : String).data &&
       hasSub ("/projects/" : String).data (normalizeSlashes p), project),
   (fun p => projectSubdirTest (normalizeSlashes p), project)]

/-- First-match-wins evaluation of the specification's rule order. -/
def inferDocumentTypeRules (p : Str) : DocumentType := firstRuleMatch docTypeRules p

/-- Modelled from the spec: the document id as §4.7 words it — the
relative path with separators replaced and the Markdown extension (when
present) removed from the end. -/
def documentIdPerSpec (cwd filePath : Str) : Str :=
  let s := (pathRelative cwd filePath).map (fun c => if c = '/' then '_' else c)
  if endsWith (".md" : String).data s then s.take (s.length - 3) else s

example : ("ab!" : String).data = ['a', 'b', '!'] := by decide

example : splitIntoSentences ("Hi there. Ok!" : String).data =
    [("Hi there." : String).data, ("Ok!" : String).data] := by decide

example : splitIntoSentences ("no terminator here" : String).data =
    [("no terminator here" : String).data] := by decide

example : jsTrim ("  a b  " : String).data = ['a', ' ', 'b'] := by decide

/-! ### Arithmetic facts about the token estimate -/

theorem est_le_of_length_le {a b : Str} (h : a.length ≤ b.length) :
    estimateTokens a ≤ estimateTokens b :=
  Nat.div_le_div_right (Nat.add_le_add_right h 3)

theorem est_append (a b : Str) :
    estimateTokens (a ++ b) ≤ estimateTokens a + estimateTokens b := by
  simp only [estimateTokens, List.length_append]
  omega

theorem est_cons_space (b : Str) :
    estimateTokens (' ' :: b) ≤ estimateTokens b + 1 := by
  simp only [estimateTokens, List.length_cons]
  omega

theorem est_jsTrim_le (l : Str) : estimateTokens (jsTrim l) ≤ estimateTokens l := by
  refine est_le_of_length_le ?_
  simp only [jsTrim, List.length_reverse]
  calc ((l.dropWhile isJsSpace).reverse.dropWhile isJsSpace).length
      ≤ (l.dropWhile isJsSpace).reverse.length := (List.dropWhile_sublist _).length_le
    _ ≤ l.length := by
        simpa using (List.dropWhile_sublist (p := isJsSpace) (l := l)).length_le

/-! ### Facts about `jsTrim` -/

theorem mem_dropWhile_of_mem {p : Char → Bool} {c : Char} :
    ∀ {l : Str}, c ∈ l → p c = false → c ∈ l.dropWhile p
  | a :: t, hm, hc => by
    by_cases ha : p a
    · have : c ∈ t := by
        rcases List.mem_cons.mp hm with h | h
        · exact absurd (h ▸ ha) (by simp [hc])
        · exact h
      simpa [List.dropWhile, ha] using mem_dropWhile_of_mem this hc
    · simpa [List.dropWhile, ha] using hm

theorem jsTrim_ne_nil_of_mem {c : Char} {l : Str}
    (hm : c ∈ l) (hc : isJsSpace c = false) : jsTrim l ≠ [] := by
  intro h
  have h2 : (l.dropWhile isJsSpace).reverse.dropWhile isJsSpace = [] := by
    have := congrArg List.reverse h
    simpa [jsTrim] using this
  have h3 : ∀ x ∈ (l.dropWhile isJsSpace).reverse, isJsSpace x = true :=
    List.dropWhile_eq_nil_iff.mp h2
  have h4 : c ∈ l.dropWhile isJsSpace := mem_dropWhile_of_mem hm hc
  have := h3 c (List.mem_reverse.mpr h4)
  simp [hc] at this

theorem jsTrim_append_end {t : Char} (r : Str) (ht : isJsSpace t = false) :
    jsTrim (r ++ [t]) = r.dropWhile isJsSpace ++ [t] := by
  have h1 : (r ++ [t]).dropWhile isJsSpace = r.dropWhile isJsSpace ++ [t] := by
    induction r with
    | nil => simp [List.dropWhile, ht]
    | cons a u ih =>
      by_cases ha : isJsSpace a <;> simp [List.dropWhile, ha, ih]
  have h2 : ((r.dropWhile isJsSpace ++ [t]).reverse).dropWhile isJsSpace
      = (r.dropWhile isJsSpace ++ [t]).reverse := by
    simp [List.dropWhile, ht]
  simp [jsTrim, h1, h2, ht]

theorem trimEnd_prefix (y : Str) :
    ∃ z, y = (y.reverse.dropWhile isJsSpace).reverse ++ z := by
  have h : y.reverse.dropWhile isJsSpace <:+ y.reverse := List.dropWhile_suffix _
  rcases h with ⟨u, hu⟩
  refine ⟨u.reverse, ?_⟩
  have := congrArg List.reverse hu
  simpa [List.reverse_append] using this.symm

theorem dropWhile_head_not {p : Char → Bool} :
    ∀ {l : Str} {a : Char} {t : Str}, l.dropWhile p = a :: t → p a = false
  | b :: u, a, t, h => by
    by_cases hb : p b
    · simp only [List.dropWhile, hb] at h
      exact dropWhile_head_not h
    · simp only [List.dropWhile, hb] at h
      cases h
      simpa using hb
  | [], a, t, h => by simp [List.dropWhile] at h

theorem jsTrim_has_nonspace {l : Str} (h : jsTrim l ≠ []) :
    ∃ c ∈ jsTrim l, isJsSpace c = false := by
  rcases ha : jsTrim l with _ | ⟨a, t⟩
  · exact absurd ha h
  refine ⟨a, by simp, ?_⟩
  have hpre : ∃ z, l.dropWhile isJsSpace = a :: t ++ z := by
    rcases trimEnd_prefix (l.dropWhile isJsSpace) with ⟨z, hz⟩
    refine ⟨z, ?_⟩
    have : jsTrim l = ((l.dropWhile isJsSpace).reverse.dropWhile isJsSpace).reverse := by
      simp [jsTrim]
    rw [ha] at this
    rw [hz, ← this]
  rcases hpre with ⟨z, hz⟩
  exact dropWhile_head_not hz

/-! ### Facts about `joinSp`, `joinNl`, `splitNl` -/

theorem joinSp_cons (a : Str) {rest : List Str} (h : rest ≠ []) :
    joinSp (a :: rest) = a ++ ' ' :: joinSp rest := by
  cases rest with
  | nil => exact absurd rfl h
  | cons b t => rfl

theorem joinNl_cons (a : Str) {rest : List Str} (h : rest ≠ []) :
    joinNl (a :: rest) = a ++ '\n' :: joinNl rest := by
  cases rest with
  | nil => exact absurd rfl h
  | cons b t => rfl

theorem joinSp_append_singleton (xs : List Str) (y : Str) :
    joinSp (xs ++ [y]) = if xs.isEmpty then y else joinSp xs ++ ' ' :: y := by
  induction xs with
  | nil => simp [joinSp]
  | cons a t ih =>
    cases t with
    | nil => simp [joinSp]
    | cons b u =>
      rw [show (a :: b :: u) ++ [y] = a :: ((b :: u) ++ [y]) from rfl,
        joinSp_cons a (by simp), ih, joinSp_cons a (by simp : b :: u ≠ [])]
      simp [List.append_assoc]

theorem mem_joinSp {c : Char} {p : Str} :
    ∀ {parts : List Str}, p ∈ parts → c ∈ p → c ∈ joinSp parts
  | [a], hp, hc => by
    rcases List.mem_singleton.mp hp with rfl
    simpa [joinSp] using hc
  | a :: b :: t, hp, hc => by
    rw [joinSp_cons a (by simp)]
    rcases List.mem_cons.mp hp with rfl | hmem
    · exact List.mem_append.mpr (Or.inl hc)
    · exact List.mem_append.mpr (Or.inr (List.mem_cons_of_mem _ (mem_joinSp hmem hc)))

theorem est_joinSp_pair (a b : Str) :
    estimateTokens (joinSp [a, b]) ≤ estimateTokens a + estimateTokens b + 1 := by
  have : joinSp [a, b] = a ++ ' ' :: b := rfl
  rw [this]
  calc estimateTokens (a ++ ' ' :: b)
      ≤ estimateTokens a + estimateTokens (' ' :: b) := est_append _ _
    _ ≤ estimateTokens a + (estimateTokens b + 1) := Nat.add_le_add_left (est_cons_space b) _
    _ = estimateTokens a + estimateTokens b + 1 := by ring

theorem splitNl_ne_nil : ∀ l : Str, splitNl l ≠ []
  | [] => by simp [splitNl]
  | c :: t => by
    simp only [splitNl]
    rcases h : splitNl t with _ | ⟨a, u⟩
    · simp
    · by_cases hc : c = '\n' <;> simp [hc]

theorem joinNl_splitNl : ∀ l : Str, joinNl (splitNl l) = l
  | [] => by simp [splitNl, joinNl]
  | c :: t => by
    have ih := joinNl_splitNl t
    rcases h : splitNl t with _ | ⟨a, u⟩
    · exact absurd h (splitNl_ne_nil t)
    · simp only [splitNl, h]
      by_cases hc : c = '\n'
      · subst hc
        rw [if_pos rfl, joinNl_cons _ (by simp)]
        rw [h] at ih
        simpa using ih
      · rw [if_neg hc]
        rw [h] at ih
        cases u with
        | nil => simpa [joinNl] using congrArg (c :: ·) ih
        | cons b v =>
          rw [joinNl_cons _ (by simp)]
          rw [joinNl_cons _ (by simp)] at ih
          simpa using congrArg (c :: ·) ih

/-! ### Facts about the sentence-split regular expression -/

theorem isTerm_not_space {c : Char} (h : isTerm c = true) : isJsSpace c = false := by
  simp only [isTerm, Bool.or_eq_true, decide_eq_true_eq] at h
  rcases h with (h | h) | h <;> subst h <;> decide

theorem tryMatch_shape {cs m rest : Str} (h : tryMatch cs = some (m, rest)) :
    ∃ run t, m = run ++ [t] ∧ isTerm t = true ∧ run ≠ [] ∧ cs = run ++ t :: rest := by
  unfold tryMatch at h
  rcases hre : cs.dropWhile isRunChar with _ | ⟨t, r⟩ <;> rw [hre] at h
  · by_cases hrun : (cs.takeWhile isRunChar).isEmpty <;> simp [hrun] at h
  · by_cases hrun : (cs.takeWhile isRunChar).isEmpty
    · simp [hrun] at h
    · simp only [hrun, Bool.false_eq_true, if_false] at h
      by_cases hc : isTerm t && lookaheadOk r
      · rw [if_pos hc] at h
        rcases Option.some.inj h with h2
        cases h2
        refine ⟨cs.takeWhile isRunChar, t, rfl, ?_, ?_, ?_⟩
        · have h4 := hc
          simp only [Bool.and_eq_true] at h4
          exact h4.1
        · simpa [List.isEmpty_iff] using hrun
        · rw [← hre]
          exact (List.takeWhile_append_dropWhile (p := isRunChar) (l := cs)).symm
      · simp [hc] at h

theorem tryMatch_length {cs m rest : Str} (h : tryMatch cs = some (m, rest)) :
    cs.length = m.length + rest.length ∧ 2 ≤ m.length := by
  rcases tryMatch_shape h with ⟨run, t, hm, _, hrun, hcs⟩
  subst hm
  constructor
  · rw [hcs]; simp; omega
  · have : 1 ≤ run.length := List.length_pos.mpr hrun
    simp; omega

theorem regexMatchesAux_congr :
    ∀ (f g : Nat) (cs : Str), cs.length ≤ f → cs.length ≤ g →
      regexMatchesAux f cs = regexMatchesAux g cs
  | 0, g, cs, hf, _ => by
    have : cs = [] := List.length_eq_zero.mp (Nat.le_zero.mp hf)
    subst this
    cases g <;> rfl
  | f + 1, 0, cs, _, hg => by
    have : cs = [] := List.length_eq_zero.mp (Nat.le_zero.mp hg)
    subst this
    rfl
  | f + 1, g + 1, [], _, _ => rfl
  | f + 1, g + 1, c :: r0, hf, hg => by
    simp only [regexMatchesAux]
    have h0f : r0.length + 1 ≤ f + 1 := by simpa using hf
    have h0g : r0.length + 1 ≤ g + 1 := by simpa using hg
    rcases htm : tryMatch (c :: r0) with _ | ⟨m, rest⟩
    · exact regexMatchesAux_congr f g r0 (by omega) (by omega)
    · rcases tryMatch_length htm with ⟨hlen, hm2⟩
      have hcs : r0.length + 1 = m.length + rest.length := by simpa using hlen
      exact congrArg (m :: ·) (regexMatchesAux_congr f g rest (by omega) (by omega))

theorem regexMatches_cons_of_match {c : Char} {r0 m rest : Str}
    (h : tryMatch (c :: r0) = some (m, rest)) :
    regexMatches (c :: r0) = m :: regexMatches rest := by
  rcases tryMatch_length h with ⟨hlen, hm2⟩
  have hcs : r0.length + 1 = m.length + rest.length := by simpa using hlen
  simp only [regexMatches, List.length_cons, regexMatchesAux, h]
  exact congrArg (m :: ·) (regexMatchesAux_congr r0.length rest.length rest (by omega) le_rfl)

theorem regexMatches_cons_of_fail {c : Char} {r0 : Str}
    (h : tryMatch (c :: r0) = none) :
    regexMatches (c :: r0) = regexMatches r0 := by
  simp only [regexMatches, List.length_cons, regexMatchesAux, h]

theorem regexMatches_shape :
    ∀ {cs : Str} {m : Str}, m ∈ regexMatches cs →
      ∃ run t, m = run ++ [t] ∧ isTerm t = true ∧ run ≠ []
  | [], m, hm => by simp [regexMatches, regexMatchesAux] at hm
  | c :: r0, m, hm => by
    rcases htm : tryMatch (c :: r0) with _ | ⟨m1, rest⟩
    · rw [regexMatches_cons_of_fail htm] at hm
      exact regexMatches_shape hm
    · rw [regexMatches_cons_of_match htm] at hm
      rcases List.mem_cons.mp hm with rfl | hmem
      · rcases tryMatch_shape htm with ⟨run, t, h1, h2, h3, _⟩
        exact ⟨run, t, h1, h2, h3⟩
      · exact regexMatches_shape hmem
  termination_by cs _ _ => cs.length
  decreasing_by
    · simp only [List.length_cons]
      omega
    · rcases tryMatch_length htm with ⟨hlen, hm2⟩
      simp only [List.length_cons] at hlen ⊢
      omega

/-! ### Facts about `splitIntoSentences` -/

theorem splitIntoSentences_of_no_match {t : Str} (h : regexMatches t = []) :
    splitIntoSentences t = [t] := by
  simp [splitIntoSentences, h]

theorem splitIntoSentences_eq_map {t : Str} (h : regexMatches t ≠ []) :
    splitIntoSentences t = (regexMatches t).map jsTrim := by
  have hall : ∀ s ∈ (regexMatches t).map jsTrim, s.length > 0 := by
    intro s hs
    rcases List.mem_map.mp hs with ⟨m, hm, rfl⟩
    rcases regexMatches_shape hm with ⟨run, tt, rfl, hterm, _⟩
    rw [jsTrim_append_end run (isTerm_not_space hterm)]
    simp
  simp only [splitIntoSentences, List.isEmpty_iff, h, if_false]
  exact List.filter_eq_self.mpr (by intro a ha; simpa using hall a ha)

theorem splitIntoSentences_ne_nil (t : Str) : splitIntoSentences t ≠ [] := by
  by_cases h : regexMatches t = []
  · simp [splitIntoSentences_of_no_match h]
  · rw [splitIntoSentences_eq_map h]
    simpa using h

theorem jsTrim_sublist (l : Str) : List.Sublist (jsTrim l) l := by
  have h1 : List.Sublist ((l.dropWhile isJsSpace).reverse.dropWhile isJsSpace)
      (l.dropWhile isJsSpace).reverse := List.dropWhile_sublist _
  have h2 : List.Sublist (jsTrim l) (l.dropWhile isJsSpace) := by
    simpa [jsTrim] using h1.reverse
  exact h2.trans (List.dropWhile_sublist _)

theorem splitIntoSentences_ends_term {t s : Str}
    (h : regexMatches t ≠ []) (hs : s ∈ splitIntoSentences t) :
    ∃ r tt, s = r ++ [tt] ∧ isTerm tt = true := by
  rw [splitIntoSentences_eq_map h] at hs
  rcases List.mem_map.mp hs with ⟨m, hm, rfl⟩
  rcases regexMatches_shape hm with ⟨run, tt, rfl, hterm, _⟩
  exact ⟨run.dropWhile isJsSpace, tt, jsTrim_append_end run (isTerm_not_space hterm), hterm⟩

theorem splitIntoSentences_nonspace {t s : Str}
    (ht : jsTrim t ≠ []) (hs : s ∈ splitIntoSentences t) :
    ∃ c ∈ s, isJsSpace c = false := by
  by_cases h : regexMatches t = []
  · rw [splitIntoSentences_of_no_match h] at hs
    rcases List.mem_singleton.mp hs with rfl
    rcases jsTrim_has_nonspace ht with ⟨c, hc1, hc2⟩
    exact ⟨c, (jsTrim_sublist s).subset hc1, hc2⟩
  · rcases splitIntoSentences_ends_term h hs with ⟨r, tt, rfl, hterm⟩
    exact ⟨tt, by simp, isTerm_not_space hterm⟩

/-! ### The tail-overlap extraction: `getLastNTokensOfText` -/

theorem tokenAcc_cons (s : Str) (l : List Str) :
    tokenAcc (s :: l) =
      estimateTokens s + (if l.isEmpty then 0 else tokenAcc l + 1) := by
  cases l with
  | nil => simp [tokenAcc]
  | cons b t =>
    simp only [tokenAcc, List.map_cons, List.sum_cons, List.length_cons, List.isEmpty_cons]
    simp
    omega

theorem tokenAcc_tail_le (s : Str) (l : List Str) : tokenAcc l ≤ tokenAcc (s :: l) := by
  rw [tokenAcc_cons]
  cases l with
  | nil => simp [tokenAcc]
  | cons b t =>
    simp only [List.isEmpty_cons, Bool.false_eq_true, if_false]
    omega

theorem tokenAcc_drop_anti (A : List Str) :
    ∀ (j k : Nat), j ≤ k → tokenAcc (A.drop k) ≤ tokenAcc (A.drop j) := by
  intro j k hjk
  induction k with
  | zero =>
    rcases Nat.le_zero.mp hjk
    exact le_rfl
  | succ k ih =>
    rcases Nat.lt_or_ge j (k + 1) with h | h
    · have h1 : tokenAcc (A.drop (k + 1)) ≤ tokenAcc (A.drop k) := by
        by_cases hk : k < A.length
        · rw [List.drop_eq_get_cons hk]
          exact tokenAcc_tail_le _ _
        · rw [List.drop_eq_nil_of_le (by omega), List.drop_eq_nil_of_le (by omega)]
      exact le_trans h1 (ih (by omega))
    · have : j = k + 1 := by omega
      subst this
      exact le_rfl

theorem est_joinSp_le_tokenAcc : ∀ l : List Str, estimateTokens (joinSp l) ≤ tokenAcc l
  | [] => by simp [joinSp, tokenAcc, estimateTokens]
  | [a] => by simp [joinSp, tokenAcc]
  | a :: b :: t => by
    rw [joinSp_cons a (by simp), tokenAcc_cons]
    calc estimateTokens (a ++ ' ' :: joinSp (b :: t))
        ≤ estimateTokens a + estimateTokens (' ' :: joinSp (b :: t)) := est_append _ _
      _ ≤ estimateTokens a + (estimateTokens (joinSp (b :: t)) + 1) :=
          Nat.add_le_add_left (est_cons_space _) _
      _ ≤ estimateTokens a + (tokenAcc (b :: t) + 1) := by
          have := est_joinSp_le_tokenAcc (b :: t)
          omega
      _ = _ := by simp

theorem tailTake_spec (V : Nat) (A : List Str) :
    ∀ n, n ≤ A.length → tokenAcc (A.drop n) ≤ V → A.drop n ≠ [] →
      ∃ j, j ≤ n ∧ tailTake V ((A.take n).reverse) (tokenAcc (A.drop n)) (A.drop n) = A.drop j ∧
        (∀ j2 < j, V < tokenAcc (A.drop j2)) ∧ tokenAcc (A.drop j) ≤ V := by
  intro n
  induction n with
  | zero =>
    intro _ hacc _
    exact ⟨0, le_rfl, rfl, by omega, hacc⟩
  | succ n ih =>
    intro hn hacc hne
    have hnlt : n < A.length := by omega
    have htake : (A.take (n + 1)).reverse = A.get ⟨n, hnlt⟩ :: (A.take n).reverse := by
      rw [← List.take_concat_get A n hnlt]
      simp
    have hdropn : A.drop n = A.get ⟨n, hnlt⟩ :: A.drop (n + 1) := List.drop_eq_get_cons hnlt
    rw [htake]
    simp only [tailTake]
    have hstep : tokenAcc (A.drop (n + 1)) + estimateTokens (A.get ⟨n, hnlt⟩) +
        (if (A.drop (n + 1)).isEmpty then 0 else 1) = tokenAcc (A.drop n) := by
      by_cases hemp : (A.drop (n + 1)).isEmpty
      · have h0 : A.drop (n + 1) = [] := by simpa [List.isEmpty_iff] using hemp
        rw [hdropn, tokenAcc_cons, h0]
        simp [tokenAcc]
      · rw [hdropn, tokenAcc_cons]
        simp only [hemp, Bool.false_eq_true, if_false]
        omega
    rw [hstep]
    by_cases hgt : tokenAcc (A.drop n) > V
    · rw [if_pos hgt]
      have hemp : (A.drop (n + 1)).isEmpty = false := by
        simpa [List.isEmpty_iff] using hne
      rw [if_neg (by simp [hemp])]
      refine ⟨n + 1, le_rfl, rfl, ?_, hacc⟩
      intro j2 hj2
      exact lt_of_lt_of_le hgt (tokenAcc_drop_anti A j2 n (by omega))
    · rw [if_neg hgt]
      have hacc' : tokenAcc (A.drop n) ≤ V := by omega
      have hne' : A.drop n ≠ [] := by rw [hdropn]; exact List.cons_ne_nil _ _
      have hcons : A.get ⟨n, hnlt⟩ :: A.drop (n + 1) = A.drop n := hdropn.symm
      rw [hcons]
      rcases ih (by omega) hacc' hne' with ⟨j, hj1, hj2, hj3, hj4⟩
      exact ⟨j, by omega, hj2, hj3, hj4⟩

theorem getLastN_spec (text : Str) (V : Nat) :
    ∃ j, j < (splitIntoSentences text).length ∧
      getLastNTokensOfText text V =
        jsTrim (joinSp ((splitIntoSentences text).drop j)) ∧
      (∀ j2 < j, V < tokenAcc ((splitIntoSentences text).drop j2)) ∧
      (tokenAcc ((splitIntoSentences text).drop j) ≤ V ∨
        j = (splitIntoSentences text).length - 1) := by
  set A := splitIntoSentences text with hA
  have hAne : A ≠ [] := splitIntoSentences_ne_nil text
  have hlen : 1 ≤ A.length := List.length_pos.mpr hAne
  have hlast : A.length - 1 < A.length := by omega
  have hdroplast : A.drop (A.length - 1) = [A.get ⟨A.length - 1, hlast⟩] := by
    rw [List.drop_eq_get_cons hlast, List.drop_eq_nil_of_le (by omega)]
  have hrev : A.reverse = A.get ⟨A.length - 1, hlast⟩ :: (A.take (A.length - 1)).reverse := by
    have h1 : A.take (A.length - 1) ++ [A.get ⟨A.length - 1, hlast⟩] = A := by
      have h2 := List.take_concat_get A (A.length - 1) hlast
      rw [show A.length - 1 + 1 = A.length from by omega] at h2
      rw [List.take_length] at h2
      simpa [List.concat_eq_append] using h2
    calc A.reverse = (A.take (A.length - 1) ++ [A.get ⟨A.length - 1, hlast⟩]).reverse := by rw [h1]
      _ = _ := by simp
  have hacc1 : tokenAcc (A.drop (A.length - 1)) = estimateTokens (A.get ⟨A.length - 1, hlast⟩) := by
    rw [hdroplast]
    simp [tokenAcc]
  unfold getLastNTokensOfText
  rw [← hA, hrev]
  simp only [tailTake, List.isEmpty_nil, if_pos, Nat.add_zero, Nat.zero_add]
  by_cases hgt : estimateTokens (A.get ⟨A.length - 1, hlast⟩) > V
  · rw [if_pos hgt]
    refine ⟨A.length - 1, hlast, ?_, ?_, Or.inr rfl⟩
    · rw [hdroplast]
    · intro j2 hj2
      have h1 : V < tokenAcc (A.drop (A.length - 1)) := by rw [hacc1]; omega
      exact lt_of_lt_of_le h1 (tokenAcc_drop_anti A j2 (A.length - 1) (by omega))
  · rw [if_neg hgt]
    have hle : tokenAcc (A.drop (A.length - 1)) ≤ V := by rw [hacc1]; omega
    have hne : A.drop (A.length - 1) ≠ [] := by
      rw [hdroplast]
      exact List.cons_ne_nil _ _
    rw [← hacc1, show [A.get ⟨A.length - 1, hlast⟩] = A.drop (A.length - 1) from hdroplast.symm]
    rcases tailTake_spec V A (A.length - 1) (by omega) hle hne with ⟨j, hj1, hj2, hj3, hj4⟩
    exact ⟨j, by omega, by rw [hj2], hj3, Or.inl hj4⟩

theorem getLastN_ne_nil {text : Str} (V : Nat) (h : jsTrim text ≠ []) :
    getLastNTokensOfText text V ≠ [] := by
  rcases getLastN_spec text V with ⟨j, hj, heq, -, -⟩
  rw [heq]
  have hne : (splitIntoSentences text).drop j ≠ [] := by
    intro hc
    have := congrArg List.length hc
    simp at this
    omega
  rcases List.exists_mem_of_ne_nil _ hne with ⟨s, hs⟩
  have hsmem : s ∈ splitIntoSentences text := (List.drop_sublist _ _).subset hs
  rcases splitIntoSentences_nonspace h hsmem with ⟨c, hc1, hc2⟩
  exact jsTrim_ne_nil_of_mem (mem_joinSp hs hc1) hc2

/-- Every non-empty result of `getLastNTokensOfText` starts with a
non-space character and so contains a non-space character. -/
theorem getLastN_nonspace {text : Str} (V : Nat) (h : jsTrim text ≠ []) :
    ∃ c ∈ getLastNTokensOfText text V, isJsSpace c = false := by
  rcases getLastN_spec text V with ⟨j, hj, heq, -, -⟩
  have := getLastN_ne_nil V h
  rw [heq] at this ⊢
  exact jsTrim_has_nonspace this

/-! ### The sentence-packing loop -/

theorem splitLoop_eq_chunksFrom (d : Str) (sec : Section) (m : BaseMetadata) :
    ∀ (ss parts : List Str) (idx tok : Nat),
      splitLoop d sec m ss parts idx tok = chunksFrom d sec m idx (rawsLoop ss parts tok).1
  | [], parts, idx, tok => by
    simp only [splitLoop, rawsLoop]
    split
    · rfl
    · rfl
  | s :: rest, parts, idx, tok => by
    simp only [splitLoop, rawsLoop]
    split <;> split
    all_goals rw [splitLoop_eq_chunksFrom d sec m rest]
    all_goals rfl

theorem chunksFrom_length (d : Str) (sec : Section) (m : BaseMetadata) :
    ∀ (i : Nat) (raws : List Str), (chunksFrom d sec m i raws).length = raws.length
  | _, [] => rfl
  | i, r :: rs => by
    simp only [chunksFrom, List.length_cons]
    rw [chunksFrom_length d sec m (i + 1) rs]

theorem chunksFrom_indices (d : Str) (sec : Section) (m : BaseMetadata) :
    ∀ (i : Nat) (raws : List Str),
      (chunksFrom d sec m i raws).map (fun c => c.metadata.chunkIndex) =
        List.range' i raws.length
  | _, [] => rfl
  | i, r :: rs => by
    simp only [chunksFrom, List.length_cons, List.map_cons, List.range'_succ]
    rw [chunksFrom_indices d sec m (i + 1) rs]
    rfl

theorem range'_append_one (s m n : Nat) :
    List.range' s m ++ List.range' (s + m) n = List.range' s (m + n) := by
  have h := List.range'_append s m n 1
  rw [one_mul, Nat.add_comm n m] at h
  exact h

/-- Every sentence buffer the loop ever holds consists of strings with a
non-space character. -/
def NSs (l : List Str) : Prop := ∀ p ∈ l, ∃ c ∈ p, isJsSpace c = false

theorem joinSp_trim_ne_nil {parts : List Str} (hne : parts ≠ []) (hns : NSs parts) :
    jsTrim (joinSp parts) ≠ [] := by
  rcases List.exists_mem_of_ne_nil _ hne with ⟨p, hp⟩
  rcases hns p hp with ⟨c, hc1, hc2⟩
  exact jsTrim_ne_nil_of_mem (mem_joinSp hp hc1) hc2

theorem NSs_append_single {parts : List Str} {s : Str}
    (hparts : NSs parts) (hs : ∃ c ∈ s, isJsSpace c = false) : NSs (parts ++ [s]) := by
  intro p hp
  rcases List.mem_append.mp hp with h2 | h2
  · exact hparts p h2
  · rcases List.mem_singleton.mp h2 with rfl
    exact hs

theorem rawsLoop_ne_nil :
    ∀ (ss parts : List Str) (tok : Nat), NSs ss → NSs parts → (ss ≠ [] ∨ parts ≠ []) →
      (rawsLoop ss parts tok).1 ≠ []
  | [], parts, tok, _, hparts, hor => by
    have hne : parts ≠ [] := by
      rcases hor with h | h
      · exact absurd rfl h
      · exact h
    have ht := joinSp_trim_ne_nil hne hparts
    simp only [rawsLoop]
    rw [if_pos ⟨by simpa [List.isEmpty_iff] using hne, by simpa [List.isEmpty_iff] using ht⟩]
    simp
  | s :: rest, parts, tok, hss, hparts, _ => by
    have hsrest : NSs rest := fun p hp => hss p (List.mem_cons_of_mem _ hp)
    have hsmem : ∃ c ∈ s, isJsSpace c = false := hss s (List.mem_cons_self _ _)
    simp only [rawsLoop]
    split <;> split
    all_goals
      first
        | exact rawsLoop_ne_nil rest (parts ++ [s]) _ hsrest
            (NSs_append_single hparts hsmem) (Or.inr (by simp))
        | simp

theorem rawsLoop_trim_ne_nil :
    ∀ (ss parts : List Str) (tok : Nat), NSs ss → NSs parts →
      ∀ r ∈ (rawsLoop ss parts tok).1, jsTrim r ≠ []
  | [], parts, tok, _, hparts, r, hr => by
    simp only [rawsLoop] at hr
    split at hr
    · rename_i h
      rcases List.mem_singleton.mp hr with rfl
      simpa [List.isEmpty_iff] using h.2
    · simp at hr
  | s :: rest, parts, tok, hss, hparts, r, hr => by
    have hsrest : NSs rest := fun p hp => hss p (List.mem_cons_of_mem _ hp)
    have hsmem : ∃ c ∈ s, isJsSpace c = false := hss s (List.mem_cons_self _ _)
    simp only [rawsLoop] at hr
    split at hr <;> split at hr <;> rename_i hin hout
    all_goals
      first
        | exact rawsLoop_trim_ne_nil rest (parts ++ [s]) _ hsrest
            (NSs_append_single hparts hsmem) r hr
        | (have hpne : parts ≠ [] := by simpa [List.isEmpty_iff] using hout.2
           have hccne : jsTrim (joinSp parts) ≠ [] := joinSp_trim_ne_nil hpne hparts
           rcases List.mem_cons.mp hr with rfl | hr2
           · exact hccne
           · refine rawsLoop_trim_ne_nil rest _ _ hsrest ?_ r hr2
             intro p hp
             rcases List.mem_cons.mp hp with rfl | hp2
             · exact getLastN_nonspace OVERLAP_TOKENS hccne
             · rcases List.mem_singleton.mp hp2 with rfl
               exact hsmem)

/-- The relation between the raw contents of two consecutive chunks of one
section: the later one starts with the tail-overlap extracted from the
earlier one, followed by the joining space. -/
def overlapRel (prev next : Str) : Prop :=
  ∃ rest2, next = getLastNTokensOfText prev OVERLAP_TOKENS ++ ' ' :: rest2

theorem rawsLoop_head :
    ∀ (ss parts : List Str) (tok : Nat),
      (rawsLoop ss parts tok).1 = [] ∨
        ∃ extra rs, (rawsLoop ss parts tok).1 = joinSp (parts ++ extra) :: rs
  | [], parts, tok => by
    simp only [rawsLoop]
    split
    · exact Or.inr ⟨[], [], by simp⟩
    · exact Or.inl rfl
  | s :: rest, parts, tok => by
    simp only [rawsLoop]
    split <;> split
    case isTrue.isTrue | isFalse.isTrue =>
      exact Or.inr ⟨[], (rawsLoop rest [getLastNTokensOfText (joinSp parts) OVERLAP_TOKENS, s]
        (estimateTokens (getLastNTokensOfText (joinSp parts) OVERLAP_TOKENS) +
          estimateTokens s + 1)).1, by simp⟩
    case isTrue.isFalse | isFalse.isFalse =>
      refine Or.imp id ?_ (rawsLoop_head rest (parts ++ [s]) _)
      rintro ⟨extra, rs, h⟩
      exact ⟨[s] ++ extra, rs, by rw [h, List.append_assoc]⟩

theorem rawsLoop_chain :
    ∀ (ss parts : List Str) (tok : Nat), List.Chain' overlapRel (rawsLoop ss parts tok).1
  | [], parts, tok => by
    simp only [rawsLoop]
    split
    · exact List.chain'_singleton _
    · exact List.chain'_nil
  | s :: rest, parts, tok => by
    simp only [rawsLoop]
    split <;> split
    all_goals
      first
        | exact rawsLoop_chain rest (parts ++ [s]) _
        | (refine List.chain'_cons'.mpr
            ⟨?_, rawsLoop_chain rest [getLastNTokensOfText (joinSp parts) OVERLAP_TOKENS, s] _⟩
           intro y hy
           rcases rawsLoop_head rest
               [getLastNTokensOfText (joinSp parts) OVERLAP_TOKENS, s] _ with h | ⟨extra, rs, h⟩
           · rw [h] at hy
             simp at hy
           · rw [h] at hy
             simp only [List.head?_cons, Option.mem_some_iff] at hy
             subst hy
             refine ⟨joinSp (s :: extra), ?_⟩
             rw [show ([getLastNTokensOfText (joinSp parts) OVERLAP_TOKENS, s] ++ extra)
                 = getLastNTokensOfText (joinSp parts) OVERLAP_TOKENS :: (s :: extra) from rfl]
             exact joinSp_cons _ (by simp))

theorem rawsLoop_bound (S : Nat) :
    ∀ (ss parts : List Str) (tok : Nat),
      (∀ u ∈ ss, estimateTokens u ≤ S) →
      estimateTokens (joinSp parts) ≤ tok →
      (parts = [] → tok = 0) →
      tok ≤ max MAX_CHUNK_TOKENS (OVERLAP_TOKENS + S + 1) →
      (rawsLoop ss parts tok).2 = true →
      ∀ r ∈ (rawsLoop ss parts tok).1,
        estimateTokens r ≤ max MAX_CHUNK_TOKENS (OVERLAP_TOKENS + S + 1)
  | [], parts, tok, _, hjoin, _, htok => by
    intro _ r hr
    simp only [rawsLoop] at hr
    split at hr
    · rcases List.mem_singleton.mp hr with rfl
      exact le_trans hjoin htok
    · simp at hr
  | s :: rest, parts, tok, hss, hjoin, hemp, htok => by
    have hsS : estimateTokens s ≤ S := hss s (List.mem_cons_self _ _)
    have hrest : ∀ u ∈ rest, estimateTokens u ≤ S :=
      fun u hu => hss u (List.mem_cons_of_mem _ hu)
    have hSB : S ≤ max MAX_CHUNK_TOKENS (OVERLAP_TOKENS + S + 1) :=
      le_trans (by omega) (le_max_right _ _)
    simp only [rawsLoop]
    split <;> split
    case isTrue.isTrue hin hout | isFalse.isTrue hin hout =>
      intro hok r hr
      replace hok : (decide (estimateTokens
          (getLastNTokensOfText (joinSp parts) OVERLAP_TOKENS) ≤ OVERLAP_TOKENS) &&
          (rawsLoop rest [getLastNTokensOfText (joinSp parts) OVERLAP_TOKENS, s]
            (estimateTokens (getLastNTokensOfText (joinSp parts) OVERLAP_TOKENS) +
              estimateTokens s + 1)).2) = true := hok
      simp only [Bool.and_eq_true, decide_eq_true_eq] at hok
      rcases List.mem_cons.mp hr with rfl | hr2
      · exact le_trans hjoin htok
      · refine rawsLoop_bound S rest
          [getLastNTokensOfText (joinSp parts) OVERLAP_TOKENS, s] _ hrest
          (est_joinSp_pair _ _) (by simp) ?_ hok.2 r hr2
        have h1 := hok.1
        calc estimateTokens (getLastNTokensOfText (joinSp parts) OVERLAP_TOKENS) +
              estimateTokens s + 1 ≤ OVERLAP_TOKENS + S + 1 := by omega
          _ ≤ _ := le_max_right _ _
    case isTrue.isFalse hin hout =>
      intro hok r hr
      have hp : parts = [] := by simpa [List.isEmpty_iff] using hin
      have ht0 : tok = 0 := hemp hp
      refine rawsLoop_bound S rest (parts ++ [s]) _ hrest ?_ (by simp) ?_ hok r hr
      · rw [hp]
        simp [joinSp]
      · rw [ht0]
        simpa using le_trans hsS hSB
    case isFalse.isFalse hin hout =>
      intro hok r hr
      have hp : parts ≠ [] := by simpa [List.isEmpty_iff] using hin
      have hle : tok + estimateTokens s + 1 ≤ MAX_CHUNK_TOKENS := by
        rcases Nat.lt_or_ge MAX_CHUNK_TOKENS (tok + estimateTokens s + 1) with h | h
        · exact absurd ⟨h, by simpa [List.isEmpty_iff] using hp⟩ hout
        · exact h
      refine rawsLoop_bound S rest (parts ++ [s]) _ hrest ?_ (by simp) ?_ hok r hr
      · rw [joinSp_append_singleton]
        rw [if_neg (by simpa [List.isEmpty_iff] using hp)]
        calc estimateTokens (joinSp parts ++ ' ' :: s)
            ≤ estimateTokens (joinSp parts) + estimateTokens (' ' :: s) := est_append _ _
          _ ≤ tok + (estimateTokens s + 1) := Nat.add_le_add hjoin (est_cons_space s)
          _ = tok + estimateTokens s + 1 := by omega
      · exact le_trans hle (le_max_left _ _)

/-! ### Section extraction -/

theorem extractLoop_no_heading :
    ∀ (lines cur : List Str) (t ty : Str),
      (∀ l ∈ lines, headingOf l = none) →
      extractLoop lines cur t ty =
        (if !(cur ++ lines).isEmpty ∧ !(jsTrim (joinNl (cur ++ lines))).isEmpty then
          [⟨t, joinNl (cur ++ lines), ty⟩] else [])
  | [], cur, t, ty, _ => by simp [extractLoop]
  | line :: rest, cur, t, ty, hh => by
    have h1 : headingOf line = none := hh line (List.mem_cons_self _ _)
    simp only [extractLoop, h1]
    rw [extractLoop_no_heading rest (cur ++ [line]) t ty
      (fun l hl => hh l (List.mem_cons_of_mem _ hl))]
    simp [List.append_assoc]

theorem extractSections_of_no_heading {content : Str}
    (hh : ∀ l ∈ splitNl content, headingOf l = none) :
    extractSections content =
      if jsTrim content = [] then
        [⟨("Content" : String).data, content, ("content" : String).data⟩]
      else [⟨[], content, ("content" : String).data⟩] := by
  unfold extractSections
  rw [extractLoop_no_heading (splitNl content) [] [] (("content" : String).data) hh]
  simp only [List.nil_append, joinNl_splitNl]
  by_cases ht : jsTrim content = []
  · have hC : ¬((!(splitNl content).isEmpty) = true ∧ (!(jsTrim content).isEmpty) = true) :=
      fun hc => absurd ht (by simpa [List.isEmpty_iff] using hc.2)
    rw [if_neg hC, if_pos ht]
    simp
  · have hC : (!(splitNl content).isEmpty) = true ∧ (!(jsTrim content).isEmpty) = true :=
      ⟨by simpa [List.isEmpty_iff] using splitNl_ne_nil content,
       by simpa [List.isEmpty_iff] using ht⟩
    rw [if_pos hC, if_neg ht]
    simp

/-! ### Chunk indices -/

theorem chunkSection_indices (sec : Section) (d : Str) (i : Nat) (m : BaseMetadata) :
    (chunkSection sec d i m).map (fun c => c.metadata.chunkIndex) =
      List.range' i (chunkSection sec d i m).length := by
  unfold chunkSection
  split
  · simp [createChunk, List.range']
  · rw [splitLargeSectionSentenceAware, splitLoop_eq_chunksFrom, chunksFrom_indices,
      chunksFrom_length]

theorem chunkAllSections_indices (d : Str) (m : BaseMetadata) :
    ∀ (secs : List Section) (i : Nat),
      (chunkAllSections d m secs i).map (fun c => c.metadata.chunkIndex) =
        List.range' i (chunkAllSections d m secs i).length
  | [], _ => rfl
  | s :: rest, i => by
    simp only [chunkAllSections, List.map_append, List.length_append]
    rw [chunkSection_indices, chunkAllSections_indices d m rest (i + (chunkSection s d i m).length)]
    exact range'_append_one i _ _

/-! ### Claim theorems -/

/-- C1.  For every document, the `chunkIndex` values of the chunks produced
by `createDocumentChunks` are exactly `0, 1, ..., totalChunks - 1` in
emission order (no gaps, no repeats), and every chunk's `totalChunks` field
equals the document's chunk count. -/
theorem chunk_indices_contiguous (d content : Str) (m : BaseMetadata) :
    (createDocumentChunks d content m).map (fun c => c.metadata.chunkIndex) =
      List.range (createDocumentChunks d content m).length ∧
    ∀ c ∈ createDocumentChunks d content m,
      c.metadata.totalChunks = (createDocumentChunks d content m).length := by
  have hmap : (createDocumentChunks d content m).map (fun c => c.metadata.chunkIndex) =
      (chunkAllSections d m (extractSections content) 0).map (fun c => c.metadata.chunkIndex) := by
    unfold createDocumentChunks
    rw [List.map_map]
    rfl
  have hlen : (createDocumentChunks d content m).length =
      (chunkAllSections d m (extractSections content) 0).length := by
    unfold createDocumentChunks
    rw [List.length_map]
  constructor
  · rw [hmap, hlen, chunkAllSections_indices d m (extractSections content) 0,
      List.range_eq_range']
  · intro c hc
    unfold createDocumentChunks at hc
    rcases List.mem_map.mp hc with ⟨c0, _, rfl⟩
    rw [hlen]

/-- C4.  For every section whose content is not all whitespace, the chunker
terminates (it is a total function of this development) and emits at least
one chunk. -/
theorem chunkSection_emits (sec : Section) (d : Str) (i : Nat) (m : BaseMetadata)
    (h : jsTrim sec.content ≠ []) : 1 ≤ (chunkSection sec d i m).length := by
  unfold chunkSection
  split
  · simp
  · rw [splitLargeSectionSentenceAware, splitLoop_eq_chunksFrom, chunksFrom_length]
    have hne := rawsLoop_ne_nil (splitIntoSentences sec.content) [] 0
      (fun u hu => splitIntoSentences_nonspace h hu)
      (fun p hp => by simp at hp)
      (Or.inl (splitIntoSentences_ne_nil _))
    exact List.length_pos.mpr hne

/-- A small concrete metadata record used by the concrete witnesses. -/
def sampleMeta : BaseMetadata :=
  { title := ("T" : String).data, type := DocumentType.guide, tags := [],
    projects := [], status := none, filePath := [], related := none }

/-- Witness for C4 at a concrete section. -/
theorem chunkSection_emits_witness :
    jsTrim (("Hi." : String).data) ≠ [] ∧
      1 ≤ (chunkSection ⟨[], ("Hi." : String).data, ("content" : String).data⟩
        ("d" : String).data 0 sampleMeta).length :=
  ⟨by decide,
    chunkSection_emits ⟨[], ("Hi." : String).data, ("content" : String).data⟩
      ("d" : String).data 0 sampleMeta (by decide)⟩

/-- C10.  When the sentence-split pattern finds no match in a section's
content (and the content is not all whitespace), the splitter yields the
whole text as one unit and the chunker emits exactly one chunk carrying the
entire section content, regardless of its estimated token count. -/
theorem no_match_single_chunk (sec : Section) (d : Str) (i : Nat) (m : BaseMetadata)
    (hm : regexMatches sec.content = []) (h : jsTrim sec.content ≠ []) :
    splitIntoSentences sec.content = [sec.content] ∧
      chunkSection sec d i m = [createChunk d i sec m sec.content] := by
  refine ⟨splitIntoSentences_of_no_match hm, ?_⟩
  unfold chunkSection
  split
  · rfl
  · rw [splitLargeSectionSentenceAware, splitIntoSentences_of_no_match hm]
    simp only [splitLoop, List.isEmpty_nil, Bool.not_true, Bool.false_eq_true, and_false,
      if_false, List.nil_append]
    rw [if_pos ⟨by simp, by simpa [List.isEmpty_iff, joinSp] using h⟩]
    rfl

/-- A concrete terminator-free section used by the C10 witness. -/
def sampleNoMatchSec : Section :=
  ⟨[], ("hello world" : String).data, ("content" : String).data⟩

/-- Witness for C10 at a concrete terminator-free section. -/
theorem no_match_single_chunk_witness :
    regexMatches sampleNoMatchSec.content = [] ∧
      jsTrim sampleNoMatchSec.content ≠ [] ∧
      (splitIntoSentences sampleNoMatchSec.content = [sampleNoMatchSec.content] ∧
        chunkSection sampleNoMatchSec ("d" : String).data 0 sampleMeta =
          [createChunk ("d" : String).data 0 sampleNoMatchSec sampleMeta
            sampleNoMatchSec.content]) :=
  ⟨by decide, by decide,
    no_match_single_chunk sampleNoMatchSec ("d" : String).data 0 sampleMeta
      (by decide) (by decide)⟩

/-- C6 counterexample.  The body `"hello"` has no heading line, yet its
single extracted section has the empty title, not `"Content"`: the claim's
predicted section list differs from the computed one. -/
theorem extractSections_no_heading_counterexample :
    (∀ l ∈ splitNl ("hello" : String).data, headingOf l = none) ∧
    extractSections ("hello" : String).data =
      [⟨[], ("hello" : String).data, ("content" : String).data⟩] ∧
    extractSections ("hello" : String).data ≠
      [⟨("Content" : String).data, ("hello" : String).data, ("content" : String).data⟩] := by
  refine ⟨by decide, by decide, by decide⟩

/-- C6 (amended).  A body with no Markdown heading line yields exactly one
section holding the entire body; its title is the empty string whenever the
body is not all whitespace, and the literal `"Content"` title appears only
in the all-whitespace fallback (which `processMarkdownFile` never reaches,
since it trims the body and skips empty bodies). -/
theorem extractSections_no_heading_section (content : Str)
    (hh : ∀ l ∈ splitNl content, headingOf l = none) :
    extractSections content =
      if jsTrim content = [] then
        [⟨("Content" : String).data, content, ("content" : String).data⟩]
      else [⟨[], content, ("content" : String).data⟩] :=
  extractSections_of_no_heading hh

/-- Witness for the amended C6 at a concrete heading-free body. -/
theorem extractSections_no_heading_section_witness :
    (∀ l ∈ splitNl ("hi there" : String).data, headingOf l = none) ∧
    extractSections ("hi there" : String).data =
      (if jsTrim ("hi there" : String).data = [] then
        [⟨("Content" : String).data, ("hi there" : String).data, ("content" : String).data⟩]
      else [⟨[], ("hi there" : String).data, ("content" : String).data⟩]) :=
  ⟨by decide, extractSections_no_heading_section (("hi there" : String).data) (by decide)⟩

/-- C5.  Evaluation of `validateRelatedMetadata` at inputs where no
category survives: because the two directed-link properties are assigned
unconditionally (a JavaScript property assigned `undefined` still exists),
the validated object always has at least two keys and is returned instead
of being omitted. -/
theorem validateRelatedMetadata_never_omits :
    validateRelatedMetadata (JVal.obj []) =
      some { simple := { adrs := none, rfcs := none, guides := none,
                         rules := none, projects := none },
             dependsOn := none, supersedes := none } ∧
    (validateRelatedMetadata
      (JVal.obj [((("adrs" : String).data), JVal.str ("x" : String).data)])).isSome = true :=
  ⟨rfl, rfl⟩

/-- C9.  The pipeline is a pure function of the discovered file list (path,
front matter, body) and the working directory: running it twice over equal
inputs yields identical document ids, identical chunk ids, and identical
chunk contents. -/
theorem pipeline_deterministic (cwd1 cwd2 : Str) (fs1 fs2 : List InputFile)
    (hc : cwd1 = cwd2) (hf : fs1 = fs2) :
    (pipelineModel cwd1 fs1).map (fun doc => doc.id) =
      (pipelineModel cwd2 fs2).map (fun doc => doc.id) ∧
    (pipelineModel cwd1 fs1).map (fun doc => doc.chunks.map (fun c => c.id)) =
      (pipelineModel cwd2 fs2).map (fun doc => doc.chunks.map (fun c => c.id)) ∧
    (pipelineModel cwd1 fs1).map (fun doc => doc.chunks.map (fun c => c.content)) =
      (pipelineModel cwd2 fs2).map (fun doc => doc.chunks.map (fun c => c.content)) := by
  subst hc
  subst hf
  exact ⟨rfl, rfl, rfl⟩

/-- Witness for C9 at a concrete input. -/
theorem pipeline_deterministic_witness :
    (pipelineModel [] [⟨("a.md" : String).data, JVal.obj [], ("Hi." : String).data⟩]).map
        (fun doc => doc.id) =
      (pipelineModel [] [⟨("a.md" : String).data, JVal.obj [], ("Hi." : String).data⟩]).map
        (fun doc => doc.id) :=
  (pipeline_deterministic [] [] _ _ rfl rfl).1

theorem leadsWith_take :
    ∀ (p1 p2 s : Str), leadsWith p1 s = true → leadsWith p2 s = true →
      p1.length ≤ p2.length → p1 = p2.take p1.length
  | [], _, _, _, _, _ => by simp
  | a :: t1, p2, s, h1, h2, hle => by
    cases s with
    | nil => simp [leadsWith] at h1
    | cons b s2 =>
      cases p2 with
      | nil => simp at hle
      | cons c t2 =>
        simp only [leadsWith, Bool.and_eq_true, decide_eq_true_eq] at h1 h2
        simp only [List.length_cons, Nat.add_le_add_iff_right] at hle
        simp only [List.length_cons]
        rw [List.take_succ_cons, h1.1, h2.1, ← leadsWith_take t1 t2 s2 h1.2 h2.2 hle]

/-- Two distinct filename-suffix patterns of the classifier cannot both
match the same file name, because neither is a suffix of the other. -/
theorem suffix_excl {p1 p2 b : Str} (h1 : endsWith p1 b = true)
    (hne : p1.reverse.take p2.length ≠ p2.reverse.take p1.length) :
    endsWith p2 b = false := by
  rcases h2 : endsWith p2 b with _ | _
  · rfl
  · exfalso
    unfold endsWith at h1 h2
    rcases le_or_lt p1.length p2.length with hle | hlt
    · have h3 := leadsWith_take p1.reverse p2.reverse b.reverse h1 h2 (by simpa using hle)
      apply hne
      have h4 : List.take p2.length p1.reverse = p1.reverse :=
        List.take_of_length_le (by simpa using hle)
      rw [h4, h3, List.length_reverse]
    · have hle2 : p2.length ≤ p1.length := le_of_lt hlt
      have h3 := leadsWith_take p2.reverse p1.reverse b.reverse h2 h1 (by simpa using hle2)
      apply hne
      have h4 : List.take p1.length p2.reverse = p2.reverse :=
        List.take_of_length_le (by simpa using hle2)
      rw [h4, h3, List.length_reverse]

/-- C7.  The document-type classifier equals first-match evaluation of the
specification's ordered rule list, and a filename suffix always wins over
the directory location. -/
theorem inferDocumentType_firstMatch :
    (∀ p : Str, inferDocumentType p = inferDocumentTypeRules p) ∧
    (∀ p : Str, endsWith (".adr.md" : String).data (basenameOf p) = true →
      inferDocumentType p = DocumentType.adr) ∧
    (∀ p : Str, endsWith (".rfc.md" : String).data (basenameOf p) = true →
      inferDocumentType p = DocumentType.rfc) ∧
    (∀ p : Str, endsWith (".guide.md" : String).data (basenameOf p) = true →
      inferDocumentType p = DocumentType.guide) ∧
    (∀ p : Str, endsWith (".rules.md" : String).data (basenameOf p) = true →
      inferDocumentType p = DocumentType.rule) := by
  refine ⟨fun p => rfl, fun p h => ?_, fun p h => ?_, fun p h => ?_, fun p h => ?_⟩
  · simp [inferDocumentType, h]
  · have h2 : endsWith (".adr.md" : String).data (basenameOf p) = false :=
      suffix_excl h (by decide)
    simp [inferDocumentType, h, h2]
  · have h2 : endsWith (".adr.md" : String).data (basenameOf p) = false :=
      suffix_excl h (by decide)
    have h3 : endsWith (".rfc.md" : String).data (basenameOf p) = false :=
      suffix_excl h (by decide)
    simp [inferDocumentType, h, h2, h3]
  · have h2 : endsWith (".adr.md" : String).data (basenameOf p) = false :=
      suffix_excl h (by decide)
    have h3 : endsWith (".rfc.md" : String).data (basenameOf p) = false :=
      suffix_excl h (by decide)
    have h4 : endsWith (".guide.md" : String).data (basenameOf p) = false :=
      suffix_excl h (by decide)
    simp [inferDocumentType, h, h2, h3, h4]

/-- Witness for C7: rule equality at one path, and each suffix rule at a
path whose directory belongs to a different kind. -/
theorem inferDocumentType_firstMatch_witness :
    inferDocumentType ("/x/projects/p/doc.md" : String).data =
      inferDocumentTypeRules ("/x/projects/p/doc.md" : String).data ∧
    inferDocumentType ("/x/guides/a.adr.md" : String).data = DocumentType.adr ∧
    inferDocumentType ("/x/rules/b.rfc.md" : String).data = DocumentType.rfc ∧
    inferDocumentType ("/x/decisions/adr/c.guide.md" : String).data = DocumentType.guide ∧
    inferDocumentType ("/x/projects/p/d.rules.md" : String).data = DocumentType.rule :=
  ⟨inferDocumentType_firstMatch.1 _,
   inferDocumentType_firstMatch.2.1 _ (by decide),
   inferDocumentType_firstMatch.2.2.1 _ (by decide),
   inferDocumentType_firstMatch.2.2.2.1 _ (by decide),
   inferDocumentType_firstMatch.2.2.2.2 _ (by decide)⟩

/-- C3.  Overlap seeding: the sentence-aware split of a section equals the
indexed chunk list built over its raw contents, consecutive raw contents
are chained by `overlapRel` (the later one starts with the tail overlap of
the earlier one plus the joining space), that tail overlap is never empty,
and for every text the tail overlap is the trimmed join of the longest
whole-sentence suffix whose running token total fits the overlap budget,
falling back to exactly the last sentence when even it alone exceeds the
budget.  Chunk contents are these raw contents behind the title header. -/
theorem chunk_overlap_seeding (sec : Section) (d : Str) (i : Nat) (m : BaseMetadata)
    (h : jsTrim sec.content ≠ []) :
    splitLargeSectionSentenceAware sec d i m = chunksFrom d sec m i (sectionRaws sec) ∧
    List.Chain' overlapRel (sectionRaws sec) ∧
    (∀ r ∈ sectionRaws sec, getLastNTokensOfText r OVERLAP_TOKENS ≠ []) ∧
    (∀ t : Str, ∃ j, j < (splitIntoSentences t).length ∧
      getLastNTokensOfText t OVERLAP_TOKENS =
        jsTrim (joinSp ((splitIntoSentences t).drop j)) ∧
      (∀ j2 < j, OVERLAP_TOKENS < tokenAcc ((splitIntoSentences t).drop j2)) ∧
      (tokenAcc ((splitIntoSentences t).drop j) ≤ OVERLAP_TOKENS ∨
        j = (splitIntoSentences t).length - 1)) := by
  refine ⟨splitLoop_eq_chunksFrom d sec m _ [] i 0, rawsLoop_chain _ [] 0, ?_, ?_⟩
  · intro r hr
    have htr : jsTrim r ≠ [] :=
      rawsLoop_trim_ne_nil (splitIntoSentences sec.content) [] 0
        (fun u hu => splitIntoSentences_nonspace h hu)
        (fun p hp => by simp at hp) r hr
    exact getLastN_ne_nil OVERLAP_TOKENS htr
  · intro t
    exact getLastN_spec t OVERLAP_TOKENS

/-- Witness for C3 at a concrete section. -/
theorem chunk_overlap_seeding_witness :
    jsTrim sampleNoMatchSec.content ≠ [] ∧
      List.Chain' overlapRel (sectionRaws sampleNoMatchSec) :=
  ⟨by decide,
    (chunk_overlap_seeding sampleNoMatchSec ("d" : String).data 0 sampleMeta
      (by decide)).2.1⟩

/-! ### The token bound (C2) -/

theorem est_addDocumentContext (content title : Str) :
    estimateTokens (addDocumentContext content title) ≤
      headerTokens title + estimateTokens (jsTrim content) := by
  simp only [addDocumentContext, estimateTokens, headerTokens, List.length_cons,
    List.length_append]
  omega

theorem chunksFrom_mem (d : Str) (sec : Section) (m : BaseMetadata) :
    ∀ (i : Nat) (raws : List Str) (c : DocumentChunk), c ∈ chunksFrom d sec m i raws →
      ∃ k r, r ∈ raws ∧ c = createChunk d k sec m r
  | i, r :: rs, c, hc => by
    rcases List.mem_cons.mp hc with rfl | h2
    · exact ⟨i, r, List.mem_cons_self _ _, rfl⟩
    · rcases chunksFrom_mem d sec m (i + 1) rs c h2 with ⟨k, r2, hr2, hceq⟩
      exact ⟨k, r2, List.mem_cons_of_mem _ hr2, hceq⟩
  | _, [], c, hc => by simp [chunksFrom] at hc

/-- C2 (amended).  Provided every overlap seed taken while splitting the
section fits the overlap budget (`sectionSeedsOk`), and `S` bounds the
token estimate of every sentence-like unit of the section, the recorded
token estimate of every chunk is at most the title-header estimate plus
`max MAX_CHUNK_TOKENS (OVERLAP_TOKENS + S + 1)`.  The claim's unconditional
multiplicative bound fails: the title header is not budgeted, and a
terminator-free run keeps a whole oversized section in one chunk. -/
theorem chunk_token_bound (sec : Section) (d : Str) (i : Nat) (m : BaseMetadata) (S : Nat)
    (hS : ∀ u ∈ splitIntoSentences sec.content, estimateTokens u ≤ S)
    (hok : sectionSeedsOk sec = true) :
    ∀ c ∈ chunkSection sec d i m,
      c.metadata.tokens ≤
        headerTokens m.title + max MAX_CHUNK_TOKENS (OVERLAP_TOKENS + S + 1) := by
  intro c hc
  unfold chunkSection at hc
  split at hc
  · rename_i hfit
    rcases List.mem_singleton.mp hc with rfl
    calc (createChunk d i sec m sec.content).metadata.tokens
        ≤ headerTokens m.title + estimateTokens (jsTrim sec.content) :=
          est_addDocumentContext _ _
      _ ≤ headerTokens m.title + estimateTokens sec.content :=
          Nat.add_le_add_left (est_jsTrim_le _) _
      _ ≤ headerTokens m.title + MAX_CHUNK_TOKENS := Nat.add_le_add_left hfit _
      _ ≤ _ := Nat.add_le_add_left (le_max_left _ _) _
  · rw [splitLargeSectionSentenceAware, splitLoop_eq_chunksFrom] at hc
    rcases chunksFrom_mem d sec m i _ c hc with ⟨k, r, hr, rfl⟩
    have hbound := rawsLoop_bound S (splitIntoSentences sec.content) [] 0 hS
      (by simp [joinSp, estimateTokens]) (fun _ => rfl) (by simp) hok r hr
    calc (createChunk d k sec m r).metadata.tokens
        ≤ headerTokens m.title + estimateTokens (jsTrim r) := est_addDocumentContext _ _
      _ ≤ headerTokens m.title + estimateTokens r :=
          Nat.add_le_add_left (est_jsTrim_le _) _
      _ ≤ _ := Nat.add_le_add_left hbound _

/-- Witness for the amended C2 at a concrete small section. -/
theorem chunk_token_bound_witness :
    (∀ u ∈ splitIntoSentences (("Hi." : String).data), estimateTokens u ≤ 1) ∧
    sectionSeedsOk ⟨[], ("Hi." : String).data, ("content" : String).data⟩ = true ∧
    ∀ c ∈ chunkSection ⟨[], ("Hi." : String).data, ("content" : String).data⟩
        ("d" : String).data 0 sampleMeta,
      c.metadata.tokens ≤
        headerTokens sampleMeta.title + max MAX_CHUNK_TOKENS (OVERLAP_TOKENS + 1 + 1) :=
  ⟨by decide, by decide,
    chunk_token_bound ⟨[], ("Hi." : String).data, ("content" : String).data⟩
      ("d" : String).data 0 sampleMeta 1 (by decide) (by decide)⟩

/-! ### Concrete oversized inputs for the token-bound counterexample -/

theorem run_replicate_take (n : Nat) :
    (List.replicate n 'a' ++ ['.']).takeWhile isRunChar = List.replicate n 'a' := by
  induction n with
  | zero => decide
  | succ k ih =>
    rw [List.replicate_succ, List.cons_append, List.takeWhile_cons,
      if_pos (by decide : isRunChar 'a' = true), ih]

theorem run_replicate_drop (n : Nat) :
    (List.replicate n 'a' ++ ['.']).dropWhile isRunChar = ['.'] := by
  induction n with
  | zero => decide
  | succ k ih =>
    rw [List.replicate_succ, List.cons_append, List.dropWhile_cons,
      if_pos (by decide : isRunChar 'a' = true), ih]

theorem tryMatch_replicate (n : Nat) (hn : 1 ≤ n) :
    tryMatch (List.replicate n 'a' ++ ['.']) =
      some (List.replicate n 'a' ++ ['.'], []) := by
  simp only [tryMatch]
  rw [run_replicate_take, run_replicate_drop]
  rw [if_neg (by
    simp only [List.isEmpty_iff, ← List.length_eq_zero, List.length_replicate]
    omega)]
  rfl

theorem regexMatches_replicate (n : Nat) (hn : 1 ≤ n) :
    regexMatches (List.replicate n 'a' ++ ['.']) = [List.replicate n 'a' ++ ['.']] := by
  rcases n with _ | k
  · omega
  · have hcons : List.replicate (k + 1) 'a' ++ ['.'] =
        'a' :: (List.replicate k 'a' ++ ['.']) := by
      simp [List.replicate_succ]
    have htm := tryMatch_replicate (k + 1) (by omega)
    rw [hcons] at htm ⊢
    rw [regexMatches_cons_of_match htm]
    rfl

theorem dropWhile_sp_replicate (n : Nat) :
    (List.replicate n 'a').dropWhile isJsSpace = List.replicate n 'a' := by
  cases n with
  | zero => rfl
  | succ k =>
    rw [List.replicate_succ, List.dropWhile_cons,
      if_neg (by decide : ¬ isJsSpace 'a' = true)]

theorem jsTrim_replicate_dot (n : Nat) :
    jsTrim (List.replicate n 'a' ++ ['.']) = List.replicate n 'a' ++ ['.'] := by
  rw [jsTrim_append_end _ (by decide : isJsSpace '.' = false), dropWhile_sp_replicate]

theorem splitIntoSentences_replicate (n : Nat) (hn : 1 ≤ n) :
    splitIntoSentences (List.replicate n 'a' ++ ['.']) =
      [List.replicate n 'a' ++ ['.']] := by
  have hm := regexMatches_replicate n hn
  rw [splitIntoSentences_eq_map (by rw [hm]; simp)]
  rw [hm]
  simp [jsTrim_replicate_dot n]

theorem splitLarge_single (sec : Section) (d : Str) (i : Nat) (m : BaseMetadata)
    (h1 : splitIntoSentences sec.content = [sec.content]) (h2 : jsTrim sec.content ≠ []) :
    splitLargeSectionSentenceAware sec d i m = [createChunk d i sec m sec.content] := by
  rw [splitLargeSectionSentenceAware, h1]
  simp only [splitLoop, List.isEmpty_nil, Bool.not_true, Bool.false_eq_true, and_false,
    if_false, List.nil_append]
  rw [if_pos ⟨by simp, by simpa [List.isEmpty_iff, joinSp] using h2⟩]
  rfl

/-- An all-base-metadata record with an oversized (12000-character) title. -/
def bigTitleMeta : BaseMetadata :=
  { title := List.replicate 12000 'x', type := DocumentType.guide, tags := [],
    projects := [], status := none, filePath := [], related := none }

/-- A tiny one-character section. -/
def smallSec : Section := ⟨[], ['a'], ("content" : String).data⟩

/-- A section that is a single 12000-character sentence. -/
def bigSentenceSec : Section :=
  ⟨[], List.replicate 11999 'a' ++ ['.'], ("content" : String).data⟩

/-- C2 counterexample.  Two concrete documents each yield a single chunk
whose recorded token estimate is 3002, more than 2.5 times the 1200-token
budget: once because the title header is not budgeted, and once because a
single sentence-unit cannot be split; in both runs no overlap seeding
occurs (a single chunk is emitted), so no margin attributable to an
overlap-seed sentence explains the excess. -/
theorem chunk_token_bound_counterexample :
    ((chunkSection smallSec ("d" : String).data 0 bigTitleMeta).map
        (fun c => c.metadata.tokens) = [3002] ∧
      (chunkSection smallSec ("d" : String).data 0 bigTitleMeta).length = 1) ∧
    ((chunkSection bigSentenceSec ("d" : String).data 0 sampleMeta).map
        (fun c => c.metadata.tokens) = [3002] ∧
      (chunkSection bigSentenceSec ("d" : String).data 0 sampleMeta).length = 1) ∧
    2 * MAX_CHUNK_TOKENS < 3002 := by
  refine ⟨?_, ?_, by norm_num [MAX_CHUNK_TOKENS]⟩
  · unfold chunkSection
    rw [if_pos (by decide)]
    refine ⟨?_, rfl⟩
    simp only [List.map_cons, List.map_nil, createChunk, addDocumentContext]
    rw [show jsTrim smallSec.content = ['a'] from by decide]
    simp only [estimateTokens, List.length_cons, List.length_append, List.length_replicate,
      bigTitleMeta]
    norm_num
  · have hsents : splitIntoSentences bigSentenceSec.content = [bigSentenceSec.content] :=
      splitIntoSentences_replicate 11999 (by omega)
    have htrim : jsTrim bigSentenceSec.content = bigSentenceSec.content :=
      jsTrim_replicate_dot 11999
    have hlen : bigSentenceSec.content.length = 12000 := by
      show (List.replicate 11999 'a' ++ ['.']).length = 12000
      rw [List.length_append, List.length_replicate, List.length_cons, List.length_nil]
    unfold chunkSection
    rw [if_neg (by
      simp only [estimateTokens, hlen]
      norm_num [MAX_CHUNK_TOKENS])]
    rw [splitLarge_single _ _ _ _ hsents (by
      rw [htrim]
      exact List.length_pos.mp (by rw [hlen]; omega))]
    refine ⟨?_, rfl⟩
    simp only [List.map_cons, List.map_nil, createChunk, addDocumentContext]
    rw [htrim]
    simp only [estimateTokens, List.length_cons, List.length_append, hlen, sampleMeta]
    norm_num

/-! ### Document ids (C8) -/

theorem leadsWith_length : ∀ {pat s : Str}, leadsWith pat s = true → pat.length ≤ s.length
  | [], _, _ => by simp
  | a :: t, [], h => by simp [leadsWith] at h
  | a :: t, b :: s2, h => by
    simp only [leadsWith, Bool.and_eq_true, decide_eq_true_eq] at h
    simpa [List.length_cons] using Nat.succ_le_succ (leadsWith_length h.2)

theorem subIdx_le {pat : Str} : ∀ {s : Str} {i : Nat}, subIdx pat s = some i →
    i + pat.length ≤ s.length
  | [], i, h => by
    simp only [subIdx] at h
    split at h
    · rename_i hl
      cases Option.some.inj h
      simpa using leadsWith_length hl
    · simp at h
  | c :: t, i, h => by
    simp only [subIdx] at h
    split at h
    · rename_i hl
      cases Option.some.inj h
      simpa using leadsWith_length hl
    · rcases Option.map_eq_some'.mp h with ⟨i0, h0, rfl⟩
      have h1 := subIdx_le h0
      simp only [List.length_cons]
      omega

theorem replaceFirst_at (pat : Str) : ∀ {s : Str} {i : Nat}, subIdx pat s = some i →
    replaceFirstStr pat [] s = s.take i ++ s.drop (i + pat.length)
  | [], i, h => by
    simp only [subIdx] at h
    split at h
    · cases Option.some.inj h
      simp [replaceFirstStr]
    · simp at h
  | c :: t, i, h => by
    simp only [subIdx] at h
    split at h
    · rename_i hl
      cases Option.some.inj h
      simp [replaceFirstStr, hl]
    · rename_i hl
      rcases Option.map_eq_some'.mp h with ⟨i0, h0, rfl⟩
      simp only [replaceFirstStr, hl, Bool.false_eq_true, if_false]
      rw [replaceFirst_at pat h0]
      rw [List.take_succ_cons, show i0 + 1 + pat.length = (i0 + pat.length) + 1 from by omega,
        List.drop_succ_cons, List.cons_append]

/-- C8 (amended).  When the first occurrence of `".md"` in the
separator-replaced relative path is the trailing extension, the document id
is that string with the extension removed; the chunk id is always the
document id followed by `"_chunk_"` and the decimal chunk index.  (As the
counterexample shows, the id transformation removes the *first* `".md"`
occurrence, which is the extension only in that case.) -/
theorem generateDocumentId_amended :
    (∀ cwd p : Str,
      subIdx (".md" : String).data
          ((pathRelative cwd p).map (fun c => if c = '/' then '_' else c)) =
        some (((pathRelative cwd p).map (fun c => if c = '/' then '_' else c)).length - 3) →
      generateDocumentId cwd p =
        ((pathRelative cwd p).map (fun c => if c = '/' then '_' else c)).take
          (((pathRelative cwd p).map (fun c => if c = '/' then '_' else c)).length - 3)) ∧
    ∀ (d : Str) (i : Nat) (sec : Section) (m : BaseMetadata) (content : Str),
      (createChunk d i sec m content).id =
        d ++ (("_chunk_" : String).data ++ Nat.toDigits 10 i) := by
  constructor
  · intro cwd p h
    have hle := subIdx_le h
    have hmd3 : (".md" : String).data.length = 3 := rfl
    have hlen3 : 3 ≤ ((pathRelative cwd p).map (fun c => if c = '/' then '_' else c)).length := by
      omega
    unfold generateDocumentId
    rw [replaceFirst_at _ h]
    rw [show ((pathRelative cwd p).map (fun c => if c = '/' then '_' else c)).length - 3 +
        (".md" : String).data.length =
        ((pathRelative cwd p).map (fun c => if c = '/' then '_' else c)).length from by
      rw [hmd3]
      omega]
    rw [List.drop_length, List.append_nil]
  · intro d i sec m content
    rfl

/-- C8 counterexample.  For the relative path `a.md/b.md` the generated id
is `a_b.md`: the replacement removed the first interior `".md"` occurrence,
not the trailing Markdown extension, so the id differs from the
specification's description (`a.md_b`). -/
theorem generateDocumentId_counterexample :
    generateDocumentId [] ("a.md/b.md" : String).data = ("a_b.md" : String).data ∧
    documentIdPerSpec [] ("a.md/b.md" : String).data = ("a.md_b" : String).data ∧
    generateDocumentId [] ("a.md/b.md" : String).data ≠
      documentIdPerSpec [] ("a.md/b.md" : String).data := by
  refine ⟨by decide, by decide, by decide⟩

/-- Witness for the amended C8 at a concrete path below a concrete root. -/
theorem generateDocumentId_amended_witness :
    subIdx (".md" : String).data
        ((pathRelative ("/r" : String).data ("/r/docs/x.md" : String).data).map
          (fun c => if c = '/' then '_' else c)) =
      some (((pathRelative ("/r" : String).data ("/r/docs/x.md" : String).data).map
          (fun c => if c = '/' then '_' else c)).length - 3) ∧
    generateDocumentId ("/r" : String).data ("/r/docs/x.md" : String).data =
      ((pathRelative ("/r" : String).data ("/r/docs/x.md" : String).data).map
          (fun c => if c = '/' then '_' else c)).take
        (((pathRelative ("/r" : String).data ("/r/docs/x.md" : String).data).map
          (fun c => if c = '/' then '_' else c)).length - 3) ∧
    (createChunk ("d" : String).data 3 smallSec sampleMeta ['a']).id =
      ("d" : String).data ++ (("_chunk_" : String).data ++ Nat.toDigits 10 3) :=
  ⟨by decide, generateDocumentId_amended.1 _ _ (by decide),
    generateDocumentId_amended.2 _ _ _ _ _⟩

/-! ### Concrete evaluation checks of the embedding -/
example : headingOf ("## Title x" : String).data = some ("Title x" : String).data := by decide
example : headingOf ("hello" : String).data = none := by decide
example : headingOf ("#######" : String).data = none := by decide
example : headingOf ("#notitle" : String).data = none := by decide
example :
    (extractSections ("hello" : String).data).map Section.title = [[]] := by decide
example :
    (extractSections ("hello" : String).data).map Section.content =
      [("hello" : String).data] := by decide
example : inferDocumentType ("/x/guides/a.adr.md" : String).data = DocumentType.adr := by decide
example : inferDocumentTypeRules ("/x/guides/a.adr.md" : String).data = DocumentType.adr := by decide
example : inferDocumentType ("/x/projects/p/doc.md" : String).data = DocumentType.project := by decide
example : inferDocumentType ("/x/projects/index.md" : String).data = DocumentType.guide := by decide
example : generateDocumentId [] ("a.md/b.md" : String).data = ("a_b.md" : String).data := by decide
example : documentIdPerSpec [] ("a.md/b.md" : String).data = ("a.md_b" : String).data := by decide
example : (validateRelatedMetadata (JVal.obj [])).isSome = true := by rfl
example :
    (chunkSection ⟨("T" : String).data, ("Hi there. Ok!" : String).data,
        ("content" : String).data⟩ ("d" : String).data 0
        { title := ("T" : String).data, type := DocumentType.guide, tags := [],
          projects := [], status := none, filePath := [], related := none }).map
      DocumentChunk.id = [("d_chunk_0" : String).data] := by decide

end Rag
